import Mathlib

/-!
Hypercube geometry engine (`main.go`).

Shallow embedding of `NewHypercube`, `Hypercube.Rotate` and
`Hypercube.ProjectTo3D`.

* Go `int` is taken as 64-bit two's complement: values are `Int`, and the
  operations that can leave the range (`<<`, `*`) are reduced with `wrap64`.
* Go slices are `List`s; an out-of-range index or a `make` with a negative
  length is a run-time panic, modelled as `none`.
* Memory is not bounded: `make` succeeds for every non-negative length.  (The Go
  runtime also refuses a slice larger than its allocation limit, which the
  vertex slice exceeds from about `n = 44` on; that limit is not modelled.)
* Division is the division of `α`; a float division by zero is not a panic in Go.
* `float64` coordinates are an arbitrary type `α` carrying the arithmetic the
  code uses; `math.Cos` and `math.Sin` are passed as the functions `cosF`
  and `sinF`.  Over `ℝ` they are `Real.cos` and `Real.sin`.
-/

namespace HypercubeGo

/-! ## Data model -/

/-- Go `type PointND struct { coords []float64 }`. -/
structure PointND (α : Type) where
  coords : List α
  deriving DecidableEq, Repr

/-- Go `type Hypercube struct { n int; vertices []PointND; edges [][2]int; rotations []float64 }`. -/
structure Hypercube (α : Type) where
  n : Int
  vertices : List (PointND α)
  edges : List (Int × Int)
  rotations : List α
  deriving DecidableEq, Repr

/-! ## Machine integers -/

/-- Reduction of an integer to the 64-bit two's complement range `[-2^63, 2^63)`. -/
def wrap64 (x : Int) : Int := (x + 2 ^ 63) % 2 ^ 64 - 2 ^ 63

/-- Go `x << s` on `int` for a count `s ≥ 0` (every count in `NewHypercube` is:
`dimensions ≥ 1` after the clamp and `d ≥ 0`): bits shifted past bit 63 are lost,
and a count of 64 or more gives 0. -/
def shl (x s : Int) : Int := if 64 ≤ s then 0 else wrap64 (x * 2 ^ s.toNat)

/-! ## Construction -/

/-- Inner loop of vertex generation, `for d := 0; d < dimensions; d++`:
`coords[d]` is `-1.0` when `i & (1 << d) == 0` and `1.0` otherwise. -/
def genCoords {α : Type} [One α] [Neg α] (dimensions i : Int) : List α :=
  (List.range dimensions.toNat).map
    (fun (d : Nat) => if Int.land i (shl 1 (d : Int)) = 0 then (-1 : α) else 1)

/-- Vertex generation, `for i := 0; i < numVertices; i++`. -/
def genVertices {α : Type} [One α] [Neg α] (dimensions numVertices : Int) :
    List (PointND α) :=
  (List.range numVertices.toNat).map (fun (i : Nat) => ⟨genCoords dimensions (i : Int)⟩)

/-- Inner loop of edge generation for vertex `i`: for each axis `d` in order,
`j := i ^ (1 << d)` and the pair `(i, j)` is appended when `j > i`. -/
def genEdgesAt (dimensions i : Int) : List (Int × Int) :=
  (List.range dimensions.toNat).filterMap
    (fun (d : Nat) =>
      let j := Int.xor i (shl 1 (d : Int))
      if j > i then some (i, j) else none)

/-- Edge generation, `for i := 0; i < numVertices; i++`. -/
def genEdges (dimensions numVertices : Int) : List (Int × Int) :=
  (List.range numVertices.toNat).flatMap (fun (i : Nat) => genEdgesAt dimensions (i : Int))

/-- Go `NewHypercube(dimensions int) *Hypercube`.  `none` is the panic of
`make` on a negative length. -/
def NewHypercube {α : Type} [Zero α] [One α] [Neg α] (dimensions : Int) :
    Option (Hypercube α) :=
  let dimensions := if dimensions < 1 then 1 else dimensions
  let numVertices := shl 1 dimensions
  if numVertices < 0 then none
  else
    let vertices : List (PointND α) := genVertices dimensions numVertices
    let edges := genEdges dimensions numVertices
    let rotLen := Int.tdiv (wrap64 (dimensions * (dimensions - 1))) 2
    if rotLen < 0 then none
    else
      some
        { n := dimensions
          vertices := vertices
          edges := edges
          rotations := List.replicate rotLen.toNat 0 }

/-! ## Rotation -/

/-- Body of `for v := range h.vertices` for one vertex: read `coords[i]` and
`coords[j]`, then overwrite both.  `none` is an index out of range. -/
def rotateCoords {α : Type} [Field α] (cosA sinA : α) (i j : Nat) (p : PointND α) :
    Option (PointND α) :=
  match p.coords[i]? with
  | none => none
  | some vi =>
    match p.coords[j]? with
    | none => none
    | some vj =>
      some ⟨(p.coords.set i (vi * cosA - vj * sinA)).set j (vi * sinA + vj * cosA)⟩

/-- The loop `for v := range h.vertices` over the whole vertex slice, in order. -/
def rotateVertices {α : Type} [Field α] (cosA sinA : α) (i j : Nat) :
    List (PointND α) → Option (List (PointND α))
  | [] => some []
  | p :: ps =>
    match rotateCoords cosA sinA i j p with
    | none => none
    | some q =>
      match rotateVertices cosA sinA i j ps with
      | none => none
      | some qs => some (q :: qs)

/-- The variables `Rotate` updates while it runs: the counter `angleIdx`, the
table `h.rotations` and the slice `h.vertices`. -/
structure RotState (α : Type) where
  angleIdx : Nat
  rotations : List α
  vertices : List (PointND α)
  deriving DecidableEq, Repr

/-- Body of the inner loop of `Rotate` for the plane `(i, j)`:
`angle := t * float64(angleIdx+1) / float64(h.n)`, stored in
`h.rotations[angleIdx]` (`none` when that index is out of range), `angleIdx++`,
then every vertex is rotated by `angle` in the plane. -/
def rotatePlane {α : Type} [Field α] (cosF sinF : α → α) (t : α) (n : Int) (i j : Nat)
    (s : RotState α) : Option (RotState α) :=
  let angle := t * ((s.angleIdx + 1 : Nat) : α) / (n : α)
  if s.angleIdx < s.rotations.length then
    match rotateVertices (cosF angle) (sinF angle) i j s.vertices with
    | none => none
    | some vs =>
      some
        { angleIdx := s.angleIdx + 1
          rotations := s.rotations.set s.angleIdx angle
          vertices := vs }
  else none

/-- The inner loop `for j := i + 1; j < h.n; j++`. -/
def rotateRow {α : Type} [Field α] (cosF sinF : α → α) (t : α) (n : Int) (i : Nat)
    (s : RotState α) : Option (RotState α) :=
  (List.range' (i + 1) (n.toNat - (i + 1))).foldlM
    (fun s j => rotatePlane cosF sinF t n i j s) s

/-- Go `func (h *Hypercube) Rotate(t float64)`: the outer loop
`for i := 0; i < h.n-1; i++` started with `angleIdx := 0`; the result is the
cube after the in-place updates, `none` when an index is out of range. -/
def Rotate {α : Type} [Field α] (cosF sinF : α → α) (h : Hypercube α) (t : α) :
    Option (Hypercube α) :=
  match (List.range (wrap64 (h.n - 1)).toNat).foldlM
      (fun s i => rotateRow cosF sinF t h.n i s) ⟨0, h.rotations, h.vertices⟩ with
  | none => none
  | some s => some { h with rotations := s.rotations, vertices := s.vertices }

/-! ### Description of a whole call of `Rotate` -/

/-- The planes `(i, j)` in the order the two loops of `Rotate` visit them. -/
def planes (n : Nat) : List (Nat × Nat) :=
  (List.range (n - 1)).flatMap
    (fun i => (List.range' (i + 1) (n - (i + 1))).map (fun j => (i, j)))

/-- The angle `t * float64(k+1) / float64(h.n)` computed when `angleIdx = k`. -/
def planeAngle {α : Type} [Field α] (t : α) (n : Int) (k : Nat) : α :=
  t * ((k + 1 : Nat) : α) / (n : α)

/-- Effect of `rotateCoords` on a coordinate list holding both indices. -/
def rotList {α : Type} [Field α] (cosA sinA : α) (i j : Nat) (l : List α) : List α :=
  (l.set i (l.getD i 0 * cosA - l.getD j 0 * sinA)).set j
    (l.getD i 0 * sinA + l.getD j 0 * cosA)

/-- The plane rotations of the list `ps`, applied one after the other to a
coordinate list, the first of them with the angle of counter value `k`. -/
def rotAll {α : Type} [Field α] (cosF sinF : α → α) (t : α) (n : Int) :
    List (Nat × Nat) → Nat → List α → List α
  | [], _, l => l
  | p :: ps, k, l =>
    rotAll cosF sinF t n ps (k + 1)
      (rotList (cosF (planeAngle t n k)) (sinF (planeAngle t n k)) p.1 p.2 l)

/-- The table after the slots `k, k + 1, ..., k + len - 1` have been overwritten
with their angles. -/
def setAngles {α : Type} [Field α] (t : α) (n : Int) : Nat → Nat → List α → List α
  | _, 0, r => r
  | k, len + 1, r => setAngles t n (k + 1) len (r.set k (planeAngle t n k))

/-! ## Projection -/

/-- Body of the loop of `ProjectTo3D` for one vertex `v`; `none` is an index
out of range. -/
def projectPoint {α : Type} [Field α] (n : Int) (v : PointND α) : Option (α × α × α) :=
  if n > 0 then
    match v.coords[(n - 1).toNat]? with
    | none => none
    | some w =>
      let wFactor := 1 / (w + 2)
      match v.coords[0]? with
      | none => none
      | some c0 =>
        let x := c0 * wFactor
        match (if n > 1 then (v.coords[1]?).map (fun c1 => c1 * wFactor) else some 0) with
        | none => none
        | some y =>
          match (if n > 2 then (v.coords[2]?).map (fun c2 => c2 * wFactor) else some 0) with
          | none => none
          | some z => some (x, y, z)
  else some (0, 0, 0)

/-- The loop `for i, v := range h.vertices` filling `projection[i]`. -/
def projectVertices {α : Type} [Field α] (n : Int) :
    List (PointND α) → Option (List (α × α × α))
  | [] => some []
  | v :: vs =>
    match projectPoint n v with
    | none => none
    | some q =>
      match projectVertices n vs with
      | none => none
      | some qs => some (q :: qs)

/-- Go `func (h *Hypercube) ProjectTo3D() [][3]float64`. -/
def ProjectTo3D {α : Type} [Field α] (h : Hypercube α) : Option (List (α × α × α)) :=
  projectVertices h.n h.vertices

/-- Closed form of `projectPoint` on a coordinate list `c` that holds `n ≥ 1`
coordinates: `wFactor` is `1 / (c[n-1] + 2)` and the point is
`(c[0] * wFactor, c[1] * wFactor or 0, c[2] * wFactor or 0)`. -/
def projFormula {α : Type} [Field α] (n : Int) (c : List α) : α × α × α :=
  (c.getD 0 0 * (1 / (c.getD (n - 1).toNat 0 + 2)),
    if n > 1 then c.getD 1 0 * (1 / (c.getD (n - 1).toNat 0 + 2)) else 0,
    if n > 2 then c.getD 2 0 * (1 / (c.getD (n - 1).toNat 0 + 2)) else 0)

/-- The loop of `ProjectTo3D` with the cube threaded through it: an iteration
fills `projection[i]` and assigns to no field of `h`. -/
def projectRun {α : Type} [Field α] (h : Hypercube α) :
    List (PointND α) → Option (List (α × α × α) × Hypercube α)
  | [] => some ([], h)
  | v :: vs =>
    match projectPoint h.n v with
    | none => none
    | some q =>
      match projectRun h vs with
      | none => none
      | some (qs, h1) => some (q :: qs, h1)

/-- The call `h.ProjectTo3D()` as a state transformer: the slice it returns and
the cube it leaves. -/
def ProjectTo3DRun {α : Type} [Field α] (h : Hypercube α) :
    Option (List (α × α × α) × Hypercube α) :=
  projectRun h h.vertices

/-- The step `projectPoint` with the float division observed.  When the divisor
`v.coords[h.n-1] + 2.0` is zero, `wFactor := 1.0 / 0.0` is an infinity and
`x = v.coords[0] * wFactor` is an infinity or a NaN: the point is then `none`, a
point that is not finite.  Otherwise it is the point `projectPoint` computes.
The outer `none` is an index out of range, as in `projectPoint`. -/
def projectPointFinite {α : Type} [Field α] [DecidableEq α] (n : Int) (v : PointND α) :
    Option (Option (α × α × α)) :=
  if n > 0 then
    match v.coords[(n - 1).toNat]? with
    | none => none
    | some w =>
      if w + 2 = 0 then (projectPoint n v).map (fun _ => none)
      else (projectPoint n v).map some
  else some (some (0, 0, 0))

/-- The loop of `ProjectTo3D` over `projectPointFinite`. -/
def projectVerticesFinite {α : Type} [Field α] [DecidableEq α] (n : Int) :
    List (PointND α) → Option (List (Option (α × α × α)))
  | [] => some []
  | v :: vs =>
    match projectPointFinite n v with
    | none => none
    | some q =>
      match projectVerticesFinite n vs with
      | none => none
      | some qs => some (q :: qs)

/-- Go `ProjectTo3D` with the float division observed: the slice it returns, each
entry a finite point or `none` for a point that is not finite. -/
def ProjectTo3DFinite {α : Type} [Field α] [DecidableEq α] (h : Hypercube α) :
    Option (List (Option (α × α × α))) :=
  projectVerticesFinite h.n h.vertices

/-! ## Rotation as the specification words it -/

/-- Specification: the pairs of axes `(i, j)` with `i < j < n` in row-major order,
`(0,1), (0,2), ..., (0,n-1), (1,2), ...`. -/
def specPlanes (n : Nat) : List (Nat × Nat) :=
  (List.range n).flatMap
    (fun i => ((List.range n).filter (fun j => decide (i < j))).map (fun j => (i, j)))

/-- Specification: the 2D rotation of the coordinate pair `(c_i, c_j)` of a
coordinate list, `new_i = c_i * cosA - c_j * sinA` and
`new_j = c_i * sinA + c_j * cosA`, both from the old `c_i` and `c_j`; the other
coordinates are kept. -/
def specPlaneRotation {α : Type} [Field α] (cosA sinA : α) (i j : Nat) (l : List α) :
    List α :=
  (List.range l.length).map
    (fun m =>
      if m = i then l.getD i 0 * cosA - l.getD j 0 * sinA
      else if m = j then l.getD i 0 * sinA + l.getD j 0 * cosA
      else l.getD m 0)

/-- Specification: the map one `Rotate(t)` applies to the coordinates of a vertex
in dimension `n`: the rotations of the planes `k = 0, 1, ...` of `specPlanes n`,
plane `k` by the angle `t * (k + 1) / n`, each acting on the output of the one
before. -/
def specRotateVertex {α : Type} [Field α] (cosF sinF : α → α) (t : α) (n : Nat)
    (l : List α) : List α :=
  (specPlanes n).enum.foldl
    (fun l kp =>
      specPlaneRotation (cosF (t * ((kp.1 : α) + 1) / (n : α)))
        (sinF (t * ((kp.1 : α) + 1) / (n : α))) kp.2.1 kp.2.2 l)
    l

/-! ## Well-formed cubes -/

/-- A cube is valid when `n ≥ 1` (`n` being an `int`, so below `2^63`), every
vertex holds exactly `n` coordinates and the rotation table has `n (n - 1) / 2`
slots. -/
def Valid {α : Type} (h : Hypercube α) : Prop :=
  1 ≤ h.n ∧ h.n < 2 ^ 63 ∧ (∀ p ∈ h.vertices, p.coords.length = h.n.toNat) ∧
    h.rotations.length = h.n.toNat * (h.n.toNat - 1) / 2

instance {α : Type} (h : Hypercube α) : Decidable (Valid h) := by
  unfold Valid
  infer_instance

/-- The square, as `NewHypercube(2)` builds it. -/
def sampleSquare (α : Type) [Field α] : Hypercube α :=
  ⟨2, [⟨[-1, -1]⟩, ⟨[1, -1]⟩, ⟨[-1, 1]⟩, ⟨[1, 1]⟩], [(0, 1), (0, 2), (1, 3), (2, 3)], [0]⟩

/-- The cube of dimension 3, as `NewHypercube(3)` builds it. -/
def sampleCube (α : Type) [Field α] : Hypercube α :=
  ⟨3, [⟨[-1, -1, -1]⟩, ⟨[1, -1, -1]⟩, ⟨[-1, 1, -1]⟩, ⟨[1, 1, -1]⟩,
      ⟨[-1, -1, 1]⟩, ⟨[1, -1, 1]⟩, ⟨[-1, 1, 1]⟩, ⟨[1, 1, 1]⟩],
    [(0, 1), (0, 2), (0, 4), (1, 3), (1, 5), (2, 3), (2, 6), (3, 7), (4, 5), (4, 6),
      (5, 7), (6, 7)],
    [0, 0, 0]⟩

/-- A cube of dimension 5 with the single vertex `(-1, 1, -1, m, 1)`. -/
def sampleFive (α : Type) [Field α] (m : α) : Hypercube α :=
  ⟨5, [⟨[-1, 1, -1, m, 1]⟩], [], [0, 0, 0, 0, 0, 0, 0, 0, 0, 0]⟩

/-- Sum of the squares of the coordinates of a point (square of its Euclidean norm). -/
def normSq {α : Type} [Field α] (p : PointND α) : α :=
  (p.coords.map (fun c => c * c)).sum

/-! ## Machine-integer facts -/

theorem wrap64_of_range (x : Int) (h0 : -2 ^ 63 ≤ x) (h1 : x < 2 ^ 63) : wrap64 x = x := by
  unfold wrap64
  rw [Int.emod_eq_of_lt (by omega) (by omega)]
  omega

theorem two_pow_le_of_lt_63 (d : Nat) (hd : d < 63) : (2 : Int) ^ d ≤ 2 ^ 62 :=
  pow_le_pow_right₀ (by norm_num) (by omega)

theorem shl_one_of_lt (d : Nat) (hd : d < 63) : shl 1 (d : Int) = ((2 ^ d : Nat) : Int) := by
  have h1 := two_pow_le_of_lt_63 d hd
  have h2 : (0 : Int) < 2 ^ d := by positivity
  unfold shl
  rw [if_neg (by omega), Int.toNat_ofNat, one_mul, wrap64_of_range _ (by omega) (by omega)]
  push_cast
  rfl

theorem land_natCast (a b : Nat) : Int.land (a : Int) (b : Int) = ((a &&& b : Nat) : Int) := rfl

theorem xor_natCast (a b : Nat) : Int.xor (a : Int) (b : Int) = ((a ^^^ b : Nat) : Int) := rfl

/-! ## Bit facts on naturals -/

theorem and_two_pow_eq_zero_iff (i d : Nat) : i &&& 2 ^ d = 0 ↔ i.testBit d = false := by
  constructor
  · intro h
    have := Nat.testBit_and i (2 ^ d) d
    rw [h, Nat.zero_testBit, Nat.testBit_two_pow_self, Bool.and_true] at this
    exact this.symm
  · intro h
    apply Nat.eq_of_testBit_eq
    intro k
    rw [Nat.testBit_and, Nat.zero_testBit, Nat.testBit_two_pow]
    by_cases hk : d = k
    · subst hk; simp [h]
    · simp [hk]

theorem testBit_xor_two_pow (i d k : Nat) :
    (i ^^^ 2 ^ d).testBit k = if d = k then !(i.testBit k) else i.testBit k := by
  rw [Nat.testBit_xor, Nat.testBit_two_pow]
  by_cases hk : d = k <;> simp [hk]

theorem lt_xor_two_pow_iff (i d : Nat) : i < i ^^^ 2 ^ d ↔ i.testBit d = false := by
  constructor
  · intro h
    by_contra hb
    rw [Bool.not_eq_false] at hb
    have : i ^^^ 2 ^ d < i := by
      apply Nat.lt_of_testBit d _ hb
      · intro j hj
        rw [testBit_xor_two_pow, if_neg (by omega)]
      · rw [testBit_xor_two_pow, if_pos rfl, hb]; rfl
    omega
  · intro hb
    apply Nat.lt_of_testBit d hb
    · rw [testBit_xor_two_pow, if_pos rfl, hb]; rfl
    · intro j hj
      rw [testBit_xor_two_pow, if_neg (by omega)]

/-! ## Construction in the range where `1 << dimensions` does not overflow -/

theorem genCoords_eq {α : Type} [One α] [Neg α] (n i : Nat) (hn : n ≤ 63) :
    (genCoords (n : Int) (i : Int) : List α) =
      (List.range n).map (fun d => if i.testBit d then (1 : α) else -1) := by
  unfold genCoords
  rw [Int.toNat_ofNat]
  apply List.map_congr_left
  intro d hd
  rw [List.mem_range] at hd
  rw [shl_one_of_lt d (by omega), land_natCast]
  by_cases hb : i.testBit d = false
  · rw [if_pos (by exact_mod_cast (and_two_pow_eq_zero_iff i d).2 hb)]
    simp [hb]
  · rw [if_neg (fun h => hb ((and_two_pow_eq_zero_iff i d).1 (by exact_mod_cast h)))]
    have hb1 : i.testBit d = true := by simpa using hb
    simp [hb1]

theorem genEdgesAt_eq (n i : Nat) (hn : n ≤ 63) :
    genEdgesAt (n : Int) (i : Int) =
      (List.range n).filterMap
        (fun d => if i.testBit d = false then some ((i : Int), ((i ^^^ 2 ^ d : Nat) : Int))
          else none) := by
  unfold genEdgesAt
  rw [Int.toNat_ofNat]
  apply List.filterMap_congr
  intro d hd
  rw [List.mem_range] at hd
  simp only [shl_one_of_lt d (by omega), xor_natCast]
  by_cases hb : i.testBit d = false
  · rw [if_pos (by exact_mod_cast (lt_xor_two_pow_iff i d).2 hb), if_pos hb]
  · rw [if_neg (fun h => hb ((lt_xor_two_pow_iff i d).1 (by exact_mod_cast h))), if_neg hb]

theorem genVertices_natCast {α : Type} [One α] [Neg α] (d : Int) (m : Nat) :
    (genVertices d (m : Int) : List (PointND α)) =
      (List.range m).map (fun (i : Nat) => ⟨genCoords d (i : Int)⟩) := by
  unfold genVertices
  rw [Int.toNat_ofNat]

theorem rotLen_eq (n : Nat) (h62 : n ≤ 62) :
    Int.tdiv (wrap64 ((n : Int) * ((n : Int) - 1))) 2 = ((n * (n - 1) / 2 : Nat) : Int) := by
  have hb : n * (n - 1) ≤ 62 * 61 := Nat.mul_le_mul h62 (by omega)
  have hc : (n : Int) * ((n : Int) - 1) = ((n * (n - 1) : Nat) : Int) := by
    rcases n with _ | m
    · simp
    · push_cast; simp
  rw [hc, wrap64_of_range _ (by omega) (by omega)]
  rfl

/-- For `1 ≤ n ≤ 62` construction returns, and the cube is the one built from the
vertex and edge loops run over `0 .. 2^n - 1`. -/
theorem NewHypercube_eq {α : Type} [Zero α] [One α] [Neg α] (n : Nat) (h1 : 1 ≤ n)
    (h62 : n ≤ 62) :
    (NewHypercube (n : Int) : Option (Hypercube α)) =
      some
        { n := (n : Int)
          vertices := genVertices (n : Int) ((2 ^ n : Nat) : Int)
          edges := genEdges (n : Int) ((2 ^ n : Nat) : Int)
          rotations := List.replicate (n * (n - 1) / 2) 0 } := by
  have hn : ¬ ((n : Int) < 1) := by omega
  unfold NewHypercube
  simp only [hn, if_false]
  rw [shl_one_of_lt n (by omega), if_neg (not_lt.2 (Int.ofNat_zero_le _)), rotLen_eq n h62,
    if_neg (not_lt.2 (Int.ofNat_zero_le _)), Int.toNat_ofNat]

/-! ## Counting vertices and edges -/

theorem sum_map_range (f : Nat → Nat) (n : Nat) :
    ((List.range n).map f).sum = ∑ i in Finset.range n, f i := by
  induction n with
  | zero => simp
  | succ k ih =>
    rw [List.range_succ, List.map_append, List.sum_append, ih, Finset.sum_range_succ]
    simp

theorem length_genEdgesAt (n i : Nat) (hn : n ≤ 63) :
    (genEdgesAt (n : Int) (i : Int)).length =
      ∑ d in Finset.range n, if i.testBit d then 0 else 1 := by
  rw [genEdgesAt_eq n i hn]
  clear hn
  induction n with
  | zero => simp
  | succ k ih =>
    rw [List.range_succ, List.filterMap_append, List.length_append, ih, Finset.sum_range_succ]
    by_cases hb : i.testBit k = false
    · simp [hb]
    · have hb1 : i.testBit k = true := by simpa using hb
      simp [hb1]

/-- Among the indices below `2 ^ m`, exactly half have bit `d < m` clear. -/
theorem sum_bit_clear (m d : Nat) (hd : d < m) :
    (∑ i in Finset.range (2 ^ m), if i.testBit d then 0 else 1) = 2 ^ (m - 1) := by
  induction m with
  | zero => omega
  | succ k ih =>
    rw [pow_succ, Nat.mul_two, Finset.sum_range_add, Nat.add_sub_cancel]
    rcases Nat.lt_or_ge d k with hlt | hge
    · have h2 : ∀ x, (if (2 ^ k + x).testBit d then 0 else 1) = if x.testBit d then 0 else 1 := by
        intro x
        rw [Nat.testBit_two_pow_add_gt hlt]
      simp only [h2]
      rw [ih hlt, ← Nat.mul_two, ← pow_succ]
      congr 1
      omega
    · have hdk : d = k := by omega
      subst hdk
      have h1 : (∑ x in Finset.range (2 ^ d), if x.testBit d then 0 else 1) = 2 ^ d := by
        rw [Finset.sum_congr rfl (g := fun _ => 1)]
        · simp
        · intro x hx
          rw [Finset.mem_range] at hx
          rw [Nat.testBit_lt_two_pow hx]
          rfl
      have h2 : (∑ x in Finset.range (2 ^ d), if (2 ^ d + x).testBit d then 0 else 1) = 0 := by
        apply Finset.sum_eq_zero
        intro x hx
        rw [Finset.mem_range] at hx
        rw [Nat.testBit_two_pow_add_eq, Nat.testBit_lt_two_pow hx]
        rfl
      rw [h1, h2, Nat.add_zero]

theorem length_genEdges (n : Nat) (hn : n ≤ 63) :
    (genEdges (n : Int) ((2 ^ n : Nat) : Int)).length = n * 2 ^ (n - 1) := by
  unfold genEdges
  rw [Int.toNat_ofNat, List.length_flatMap, sum_map_range]
  simp only [Function.comp_apply, length_genEdgesAt _ _ hn]
  rw [Finset.sum_comm, Finset.sum_congr rfl (g := fun _ => 2 ^ (n - 1))]
  · simp
  · intro d hd
    rw [Finset.mem_range] at hd
    exact sum_bit_clear n d hd

/-! ## The edge list -/

theorem mem_genEdgesAt (n i : Nat) (hn : n ≤ 63) (e : Int × Int) :
    e ∈ genEdgesAt (n : Int) (i : Int) ↔
      ∃ d, d < n ∧ i.testBit d = false ∧ e = ((i : Int), ((i ^^^ 2 ^ d : Nat) : Int)) := by
  rw [genEdgesAt_eq n i hn, List.mem_filterMap]
  constructor
  · rintro ⟨d, hd, he⟩
    rw [List.mem_range] at hd
    by_cases hb : i.testBit d = false
    · rw [if_pos hb] at he
      exact ⟨d, hd, hb, (Option.some.inj he).symm⟩
    · rw [if_neg hb] at he
      exact absurd he (by simp)
  · rintro ⟨d, hd, hb, he⟩
    exact ⟨d, List.mem_range.2 hd, by rw [if_pos hb, he]⟩

theorem mem_genEdges (n m : Nat) (hn : n ≤ 63) (e : Int × Int) :
    e ∈ genEdges (n : Int) (m : Int) ↔
      ∃ i d, i < m ∧ d < n ∧ i.testBit d = false ∧
        e = ((i : Int), ((i ^^^ 2 ^ d : Nat) : Int)) := by
  unfold genEdges
  rw [Int.toNat_ofNat, List.mem_flatMap]
  constructor
  · rintro ⟨i, hi, he⟩
    rw [List.mem_range] at hi
    obtain ⟨d, hd, hb, he⟩ := (mem_genEdgesAt n i hn e).1 he
    exact ⟨i, d, hi, hd, hb, he⟩
  · rintro ⟨i, d, hi, hd, hb, he⟩
    exact ⟨i, List.mem_range.2 hi, (mem_genEdgesAt n i hn e).2 ⟨d, hd, hb, he⟩⟩

theorem nodup_genEdgesAt (n i : Nat) (hn : n ≤ 63) : (genEdgesAt (n : Int) (i : Int)).Nodup := by
  rw [genEdgesAt_eq n i hn]
  apply List.Nodup.filterMap _ (List.nodup_range n)
  intro d d' e hd hd'
  by_cases hb : i.testBit d = false
  · by_cases hb' : i.testBit d' = false
    · rw [if_pos hb, Option.mem_def] at hd
      rw [if_pos hb', Option.mem_def] at hd'
      have h2 := (Prod.mk.inj ((Option.some.inj hd).trans (Option.some.inj hd').symm)).2
      have h3 : i ^^^ 2 ^ d = i ^^^ 2 ^ d' := by exact_mod_cast h2
      exact Nat.pow_right_injective (le_refl 2) (Nat.xor_right_inj.1 h3)
    · rw [if_neg hb'] at hd'
      exact absurd hd' (by simp)
  · rw [if_neg hb] at hd
    exact absurd hd (by simp)

theorem nodup_genEdges (n m : Nat) (hn : n ≤ 63) : (genEdges (n : Int) (m : Int)).Nodup := by
  unfold genEdges
  rw [Int.toNat_ofNat, List.nodup_flatMap]
  refine ⟨fun i _ => nodup_genEdgesAt n i hn, ?_⟩
  apply (List.pairwise_lt_range m).imp
  intro a b hab
  show List.Disjoint (genEdgesAt (n : Int) (a : Int)) (genEdgesAt (n : Int) (b : Int))
  intro e ha hb
  obtain ⟨d, -, -, he⟩ := (mem_genEdgesAt n a hn e).1 ha
  obtain ⟨d', -, -, he'⟩ := (mem_genEdgesAt n b hn e).1 hb
  have h1 := (Prod.mk.inj (he.symm.trans he')).1
  have h2 : a = b := by exact_mod_cast h1
  omega

theorem length_filter_eq_of_nodup {β : Type} [DecidableEq β] (l : List β) (a : β)
    (hl : l.Nodup) (ha : a ∈ l) : (l.filter (fun e => decide (e = a))).length = 1 := by
  have h1 := List.count_eq_one_of_mem hl ha
  rw [List.count_eq_countP, List.countP_eq_length_filter] at h1
  rw [← h1]
  congr 2

/-- Every pair produced by the edge loops run over `0 .. 2^n - 1` goes from a
lower to a higher index below `2^n`, the two differing in one bit `d < n`. -/
theorem genEdges_sound (n : Nat) (hn : n ≤ 63) (e : Int × Int)
    (he : e ∈ genEdges (n : Int) ((2 ^ n : Nat) : Int)) :
    0 ≤ e.1 ∧ e.1 < e.2 ∧ e.2 < (2 : Int) ^ n ∧
      ∃ d : Nat, d < n ∧ Int.xor e.1 e.2 = (2 : Int) ^ d := by
  obtain ⟨i, d, hi, hd, hb, rfl⟩ := (mem_genEdges n (2 ^ n) hn e).1 he
  have hlt := (lt_xor_two_pow_iff i d).2 hb
  have hx : i ^^^ 2 ^ d < 2 ^ n :=
    Nat.xor_lt_two_pow hi (Nat.pow_lt_pow_right (by norm_num) hd)
  refine ⟨Int.ofNat_zero_le _, ?_, ?_, d, hd, ?_⟩
  · show (i : Int) < ((i ^^^ 2 ^ d : Nat) : Int)
    exact_mod_cast hlt
  · show ((i ^^^ 2 ^ d : Nat) : Int) < (2 : Int) ^ n
    exact_mod_cast hx
  · show Int.xor (i : Int) ((i ^^^ 2 ^ d : Nat) : Int) = (2 : Int) ^ d
    rw [xor_natCast, Nat.xor_cancel_left]
    push_cast
    rfl

theorem nodup_sym2_genEdges (n : Nat) (hn : n ≤ 63) :
    ((genEdges (n : Int) ((2 ^ n : Nat) : Int)).map Sym2.mk).Nodup := by
  apply List.Nodup.map_on _ (nodup_genEdges n (2 ^ n) hn)
  intro x hx y hy hxy
  have h1 := (genEdges_sound n hn x hx).2.1
  have h2 := (genEdges_sound n hn y hy).2.1
  rcases x with ⟨a, b⟩
  rcases y with ⟨c, d⟩
  rw [Sym2.mk_eq_mk_iff] at hxy
  rcases hxy with hxy | hxy
  · exact hxy
  · have h3 := Prod.mk.inj hxy
    simp only [Prod.swap] at h3
    simp only at h1 h2
    omega

/-! ## Construction on arbitrary dimension counts -/

theorem shl_of_ge_64 (x s : Int) (hs : 64 ≤ s) : shl x s = 0 := if_pos hs

theorem shl_one_63 : shl 1 63 = -2 ^ 63 := by decide

/-- What a returned cube holds, for any dimension count `d ≥ 1`. -/
theorem NewHypercube_some {α : Type} [Zero α] [One α] [Neg α] (d : Int) (h1 : 1 ≤ d)
    (h : Hypercube α) (hh : NewHypercube d = some h) :
    0 ≤ shl 1 d ∧ h.n = d ∧ h.vertices = genVertices d (shl 1 d) ∧
      h.edges = genEdges d (shl 1 d) := by
  have hn : ¬ (d < 1) := by omega
  unfold NewHypercube at hh
  simp only [hn, if_false] at hh
  by_cases hv : shl 1 d < 0
  · rw [if_pos hv] at hh
    exact absurd hh (by simp)
  · rw [if_neg hv] at hh
    by_cases hr : Int.tdiv (wrap64 (d * (d - 1))) 2 < 0
    · rw [if_pos hr] at hh
      exact absurd hh (by simp)
    · rw [if_neg hr] at hh
      have := Option.some.inj hh
      subst this
      exact ⟨by omega, rfl, rfl, rfl⟩

/-- A returned cube of dimension `n` either comes from the range `n ≤ 62`, or has
`n ≥ 64` and neither vertices nor edges. -/
theorem NewHypercube_some_cases {α : Type} [Zero α] [One α] [Neg α] (n : Nat) (h1 : 1 ≤ n)
    (h : Hypercube α) (hh : NewHypercube (n : Int) = some h) :
    (n ≤ 62 ∧ h.edges = genEdges (n : Int) ((2 ^ n : Nat) : Int)) ∨
      (64 ≤ n ∧ h.vertices = [] ∧ h.edges = []) := by
  obtain ⟨h0, -, hv, he⟩ := NewHypercube_some (n : Int) (by omega) h hh
  rcases Nat.lt_trichotomy n 63 with hlt | heq | hgt
  · left
    refine ⟨by omega, ?_⟩
    rw [he, shl_one_of_lt n hlt]
  · subst heq
    rw [show ((63 : Nat) : Int) = 63 from rfl, shl_one_63] at h0
    omega
  · right
    rw [shl_of_ge_64 1 (n : Int) (by omega)] at hv he
    exact ⟨by omega, hv, he⟩

theorem NewHypercube_64 {α : Type} [Zero α] [One α] [Neg α] :
    (NewHypercube 64 : Option (Hypercube α)) = some ⟨64, [], [], List.replicate 2016 0⟩ := rfl

theorem NewHypercube_63 {α : Type} [Zero α] [One α] [Neg α] :
    (NewHypercube 63 : Option (Hypercube α)) = none := rfl

/-! ## Claims on construction -/

/-- Where `1 << n` does not overflow (and with memory unbounded): for every `n` with
`1 ≤ n ≤ 62`, `NewHypercube(n)` returns a cube
whose vertices list has exactly `2^n` entries and whose edges list has exactly
`n * 2^(n-1)` entries. -/
theorem NewHypercube_counts {α : Type} [Zero α] [One α] [Neg α] (n : Nat) (h1 : 1 ≤ n)
    (h62 : n ≤ 62) :
    ∃ h : Hypercube α, NewHypercube (n : Int) = some h ∧
      h.vertices.length = 2 ^ n ∧ h.edges.length = n * 2 ^ (n - 1) := by
  refine ⟨_, NewHypercube_eq n h1 h62, ?_, length_genEdges n (by omega)⟩
  show (genVertices (n : Int) ((2 ^ n : Nat) : Int) : List (PointND α)).length = 2 ^ n
  rw [genVertices_natCast, List.length_map, List.length_range]

theorem NewHypercube_counts_witness :
    ∃ h : Hypercube Int, NewHypercube ((3 : Nat) : Int) = some h ∧
      h.vertices.length = 2 ^ 3 ∧ h.edges.length = 3 * 2 ^ (3 - 1) :=
  NewHypercube_counts 3 (by decide) (by decide)

/-- C1 (evaluation at the failing input `NewHypercube(64)`): `1 << 64` is 0 in a
64-bit `int`, so the cube returned by `NewHypercube(64)` has no vertex and no edge
instead of `2^64` vertices and `64 * 2^63` edges. -/
theorem NewHypercube_counts_fails_at_64 :
    (NewHypercube 64 : Option (Hypercube Int)) = some ⟨64, [], [], List.replicate 2016 0⟩ ∧
      ¬ ∃ h : Hypercube Int, NewHypercube (((64 : Nat)) : Int) = some h ∧
        h.vertices.length = 2 ^ 64 ∧ h.edges.length = 64 * 2 ^ (64 - 1) := by
  refine ⟨NewHypercube_64, ?_⟩
  rintro ⟨h, hh, hv, -⟩
  have h2 := (show (NewHypercube (((64 : Nat)) : Int) : Option (Hypercube Int)) = _
    from NewHypercube_64).symm.trans hh
  rw [← Option.some.inj h2] at hv
  exact absurd hv (by decide)

/-- Where `1 << n` does not overflow (and with memory unbounded): for every `n` with
`1 ≤ n ≤ 62`, every vertex index `i < 2^n` and
every axis `d < n`, in the cube returned by `NewHypercube(n)` vertex `i` has exactly
`n` coordinates and its coordinate `d` is `+1` if bit `d` of `i` is set and `-1`
otherwise. -/
theorem NewHypercube_vertex_coords {α : Type} [Zero α] [One α] [Neg α] (n : Nat)
    (h1 : 1 ≤ n) (h62 : n ≤ 62) (i d : Nat) (hi : i < 2 ^ n) (hd : d < n) :
    ∃ (h : Hypercube α) (p : PointND α), NewHypercube (n : Int) = some h ∧
      h.vertices[i]? = some p ∧ p.coords.length = n ∧
      p.coords[d]? = some (if i.testBit d then 1 else -1) := by
  refine ⟨_, ⟨genCoords (n : Int) (i : Int)⟩, NewHypercube_eq n h1 h62, ?_, ?_, ?_⟩
  · show (genVertices (n : Int) ((2 ^ n : Nat) : Int) : List (PointND α))[i]? = _
    rw [genVertices_natCast, List.getElem?_map, List.getElem?_range hi]
    rfl
  · simp [genCoords]
  · show (genCoords (n : Int) (i : Int) : List α)[d]? = _
    rw [genCoords_eq n i (by omega)]
    simp [List.getElem?_range hd]

theorem NewHypercube_vertex_coords_witness :
    ∃ (h : Hypercube Int) (p : PointND Int), NewHypercube ((3 : Nat) : Int) = some h ∧
      h.vertices[5]? = some p ∧ p.coords.length = 3 ∧
      p.coords[1]? = some (if Nat.testBit 5 1 then 1 else -1) :=
  NewHypercube_vertex_coords 3 (by decide) (by decide) 5 1 (by decide) (by decide)

/-- C2 (evaluation at the failing input `NewHypercube(64)`, `i = 0`, `d = 0`):
`1 << 64` is 0 in a 64-bit `int`, so the cube returned by `NewHypercube(64)` has
no vertex 0 instead of a vertex 0 with 64 coordinates, coordinate 0 being `-1`. -/
theorem NewHypercube_vertex_coords_fails_at_64 :
    (NewHypercube 64 : Option (Hypercube Int)) = some ⟨64, [], [], List.replicate 2016 0⟩ ∧
      ¬ ∃ (h : Hypercube Int) (p : PointND Int), NewHypercube ((64 : Nat) : Int) = some h ∧
        h.vertices[0]? = some p ∧ p.coords.length = 64 ∧
        p.coords[0]? = some (if Nat.testBit 0 0 then 1 else -1) := by
  refine ⟨NewHypercube_64, ?_⟩
  rintro ⟨h, p, hh, hv, -⟩
  have h2 := (show (NewHypercube (((64 : Nat)) : Int) : Option (Hypercube Int)) = _
    from NewHypercube_64).symm.trans hh
  rw [← Option.some.inj h2] at hv
  exact absurd hv (by simp)

/-- C3: for every `n ≥ 1`, the edges list of a cube returned by `NewHypercube(n)`
contains no duplicate unordered pair, and every recorded edge `(i, j)` satisfies
`0 ≤ i < j < 2^n` with `i XOR j = 2^d` for some `d < n`; for `n ≤ 62` a cube is
returned. -/
theorem NewHypercube_edges_sound {α : Type} [Zero α] [One α] [Neg α] (n : Nat) (h1 : 1 ≤ n) :
    (n ≤ 62 → ∃ h : Hypercube α, NewHypercube (n : Int) = some h) ∧
      ∀ h : Hypercube α, NewHypercube (n : Int) = some h →
        (h.edges.map Sym2.mk).Nodup ∧
        ∀ e ∈ h.edges, 0 ≤ e.1 ∧ e.1 < e.2 ∧ e.2 < (2 : Int) ^ n ∧
          ∃ d : Nat, d < n ∧ Int.xor e.1 e.2 = (2 : Int) ^ d := by
  refine ⟨fun h62 => ⟨_, NewHypercube_eq n h1 h62⟩, ?_⟩
  intro h hh
  rcases NewHypercube_some_cases n h1 h hh with ⟨h62, he⟩ | ⟨-, -, he⟩
  · rw [he]
    exact ⟨nodup_sym2_genEdges n (by omega), fun e => genEdges_sound n (by omega) e⟩
  · rw [he]
    exact ⟨List.nodup_nil, fun e hmem => absurd hmem (List.not_mem_nil e)⟩

theorem NewHypercube_edges_sound_witness :
    (2 ≤ 62 → ∃ h : Hypercube Int, NewHypercube ((2 : Nat) : Int) = some h) ∧
      ∀ h : Hypercube Int, NewHypercube ((2 : Nat) : Int) = some h →
        (h.edges.map Sym2.mk).Nodup ∧
        ∀ e ∈ h.edges, 0 ≤ e.1 ∧ e.1 < e.2 ∧ e.2 < (2 : Int) ^ 2 ∧
          ∃ d : Nat, d < 2 ∧ Int.xor e.1 e.2 = (2 : Int) ^ d :=
  NewHypercube_edges_sound 2 (by decide)

/-- Where `1 << n` does not overflow (and with memory unbounded): for every `n` with
`1 ≤ n ≤ 62` and every pair of vertex indices
`i < j < 2^n` that differ in exactly one bit (`i XOR j = 2^d`), the pair `(i, j)`
occurs exactly once in the edges list of `NewHypercube(n)` and the pair `(j, i)`
never occurs. -/
theorem NewHypercube_edges_complete {α : Type} [Zero α] [One α] [Neg α] (n : Nat)
    (h1 : 1 ≤ n) (h62 : n ≤ 62) (i j d : Nat) (hij : i < j) (hj : j < 2 ^ n)
    (hx : i ^^^ j = 2 ^ d) :
    ∃ h : Hypercube α, NewHypercube (n : Int) = some h ∧
      (h.edges.filter (fun e => decide (e = ((i : Int), (j : Int))))).length = 1 ∧
      ((j : Int), (i : Int)) ∉ h.edges := by
  refine ⟨_, NewHypercube_eq n h1 h62, ?_, ?_⟩
  · show ((genEdges (n : Int) ((2 ^ n : Nat) : Int)).filter
      (fun e => decide (e = ((i : Int), (j : Int))))).length = 1
    apply length_filter_eq_of_nodup _ _ (nodup_genEdges n (2 ^ n) (by omega))
    have hjx : j = i ^^^ 2 ^ d := by rw [← hx, Nat.xor_cancel_left]
    have hb : i.testBit d = false := (lt_xor_two_pow_iff i d).1 (by omega)
    have hlt : 2 ^ d < 2 ^ n := by
      rw [← hx]
      exact Nat.xor_lt_two_pow (by omega) hj
    have hd : d < n := (Nat.pow_lt_pow_iff_right (by norm_num)).1 hlt
    exact (mem_genEdges n (2 ^ n) (by omega) _).2 ⟨i, d, by omega, hd, hb, by rw [hjx]⟩
  · show ((j : Int), (i : Int)) ∉ genEdges (n : Int) ((2 ^ n : Nat) : Int)
    intro hmem
    have h2 := (genEdges_sound n (by omega) _ hmem).2.1
    simp only at h2
    omega

theorem NewHypercube_edges_complete_witness :
    ∃ h : Hypercube Int, NewHypercube ((3 : Nat) : Int) = some h ∧
      (h.edges.filter
        (fun e => decide (e = (((1 : Nat) : Int), ((5 : Nat) : Int))))).length = 1 ∧
      (((5 : Nat) : Int), ((1 : Nat) : Int)) ∉ h.edges :=
  NewHypercube_edges_complete 3 (by decide) (by decide) 1 5 2 (by decide) (by decide)
    (by decide)

/-- C4 (evaluation at the failing input `NewHypercube(64)`, `i = 0`, `j = 1`): the
indices `0 < 1 < 2^64` differ in exactly one bit, and the cube returned by
`NewHypercube(64)` has an empty edges list, so the pair `(0, 1)` does not occur
in it once. -/
theorem NewHypercube_edges_complete_fails_at_64 :
    (NewHypercube 64 : Option (Hypercube Int)) = some ⟨64, [], [], List.replicate 2016 0⟩ ∧
      (0 : Nat) < 1 ∧ (1 : Nat) < 2 ^ 64 ∧ (0 : Nat) ^^^ 1 = 2 ^ 0 ∧
      ¬ ∃ h : Hypercube Int, NewHypercube ((64 : Nat) : Int) = some h ∧
        (h.edges.filter
          (fun e => decide (e = (((0 : Nat) : Int), ((1 : Nat) : Int))))).length = 1 := by
  refine ⟨NewHypercube_64, by decide, by decide, by decide, ?_⟩
  rintro ⟨h, hh, hc⟩
  have h2 := (show (NewHypercube (((64 : Nat)) : Int) : Option (Hypercube Int)) = _
    from NewHypercube_64).symm.trans hh
  rw [← Option.some.inj h2] at hc
  exact absurd hc (by decide)

/-- C5: the dimension count is clamped to a floor of 1 without an error: for every
integer `d < 1`, `NewHypercube(d)` returns the same cube as `NewHypercube(1)`, which
has `n = 1`, two vertices, one edge and an empty rotation table; for every `d ≥ 1`
the `n` stored in a returned cube equals `d`, and a cube is returned when `d ≤ 62`. -/
theorem NewHypercube_clamp {α : Type} [Zero α] [One α] [Neg α] (d : Int) :
    (d < 1 → (NewHypercube d : Option (Hypercube α)) = NewHypercube 1 ∧
        (NewHypercube d : Option (Hypercube α)) =
          some ⟨1, [⟨[-1]⟩, ⟨[1]⟩], [(0, 1)], []⟩) ∧
      (1 ≤ d → (∀ h : Hypercube α, NewHypercube d = some h → h.n = d) ∧
        (d ≤ 62 → ∃ h : Hypercube α, NewHypercube d = some h ∧ h.n = d)) := by
  constructor
  · intro hd
    have h0 : (NewHypercube d : Option (Hypercube α)) = NewHypercube 1 := by
      unfold NewHypercube
      simp only [hd, if_true]
      rfl
    exact ⟨h0, h0.trans rfl⟩
  · intro hd
    refine ⟨fun h hh => (NewHypercube_some d hd h hh).2.1, fun h62 => ?_⟩
    obtain ⟨n, rfl⟩ := Int.eq_ofNat_of_zero_le (by omega : 0 ≤ d)
    exact ⟨_, NewHypercube_eq n (by omega) (by omega), rfl⟩

theorem NewHypercube_clamp_witness :
    ((NewHypercube (-5) : Option (Hypercube Int)) = NewHypercube 1 ∧
        (NewHypercube (-5) : Option (Hypercube Int)) =
          some ⟨1, [⟨[-1]⟩, ⟨[1]⟩], [(0, 1)], []⟩) ∧
      ((∀ h : Hypercube Int, NewHypercube 7 = some h → h.n = 7) ∧
        ((7 : Int) ≤ 62 → ∃ h : Hypercube Int, NewHypercube 7 = some h ∧ h.n = 7)) :=
  ⟨(NewHypercube_clamp (-5)).1 (by decide), (NewHypercube_clamp 7).2 (by decide)⟩

/-- C6 (evaluation at the failing inputs): with a 64-bit `int`, `NewHypercube(63)`
panics, because `1 << 63` is negative and `make` rejects the length, and
`NewHypercube(64)` returns a cube with `n = 64` and no vertex, because `1 << 64`
is 0. -/
theorem NewHypercube_overflow :
    (NewHypercube 63 : Option (Hypercube Int)) = none ∧
      (NewHypercube 64 : Option (Hypercube Int)) =
        some ⟨64, [], [], List.replicate 2016 0⟩ ∧
      ¬ ∃ h : Hypercube Int, NewHypercube 64 = some h ∧ h.vertices.length = 2 ^ 64 := by
  refine ⟨NewHypercube_63, NewHypercube_64, ?_⟩
  rintro ⟨h, hh, hv⟩
  have h2 := (show (NewHypercube 64 : Option (Hypercube Int)) = _
    from NewHypercube_64).symm.trans hh
  rw [← Option.some.inj h2] at hv
  exact absurd hv (by decide)

/-! ## Rotation: the run of the loops on a valid cube -/

theorem foldlM_flatMap_option {σ β γ : Type} (f : β → List γ) (g : σ → γ → Option σ)
    (l : List β) (s : σ) :
    (l.flatMap f).foldlM g s = l.foldlM (fun s b => (f b).foldlM g s) s := by
  induction l generalizing s with
  | nil => rfl
  | cons b bs ih =>
    rw [List.flatMap_cons, List.foldlM_append, List.foldlM_cons]
    cases h : (f b).foldlM g s with
    | none => rfl
    | some s1 => exact ih s1

/-- The two nested loops of `Rotate` are one pass over `planes`. -/
theorem rotate_loops_eq {α : Type} [Field α] (cosF sinF : α → α) (t : α) (n : Int)
    (m : Nat) (s : RotState α) :
    (List.range (m - 1)).foldlM
        (fun s i =>
          (List.range' (i + 1) (m - (i + 1))).foldlM
            (fun s j => rotatePlane cosF sinF t n i j s) s) s =
      (planes m).foldlM (fun s p => rotatePlane cosF sinF t n p.1 p.2 s) s := by
  unfold planes
  rw [foldlM_flatMap_option]
  congr 1
  funext s i
  rw [List.foldlM_map]

theorem mem_planes (n : Nat) (p : Nat × Nat) (hp : p ∈ planes n) : p.1 < p.2 ∧ p.2 < n := by
  unfold planes at hp
  rw [List.mem_flatMap] at hp
  obtain ⟨i, -, hp⟩ := hp
  rw [List.mem_map] at hp
  obtain ⟨j, hj, rfl⟩ := hp
  rw [List.mem_range'_1] at hj
  constructor
  · show i < j
    omega
  · show j < n
    omega

theorem mem_planes_iff (n i j : Nat) : (i, j) ∈ planes n ↔ i < j ∧ j < n := by
  constructor
  · exact fun h => mem_planes n (i, j) h
  · rintro ⟨hij, hj⟩
    unfold planes
    rw [List.mem_flatMap]
    refine ⟨i, List.mem_range.2 (by omega), ?_⟩
    rw [List.mem_map]
    exact ⟨j, List.mem_range'_1.2 (by omega), rfl⟩

/-- The list `planes n` is in row-major order: strictly increasing in `i`, then in `j`. -/
theorem pairwise_planes (n : Nat) :
    (planes n).Pairwise (fun p q => p.1 < q.1 ∨ (p.1 = q.1 ∧ p.2 < q.2)) := by
  unfold planes
  rw [List.pairwise_flatMap]
  constructor
  · intro i _
    rw [List.pairwise_map]
    exact (List.pairwise_lt_range' (i + 1) (n - (i + 1))).imp
      (fun hab => Or.inr ⟨rfl, hab⟩)
  · apply (List.pairwise_lt_range (n - 1)).imp
    intro a b hab x hx y hy
    rw [List.mem_map] at hx hy
    obtain ⟨_, -, rfl⟩ := hx
    obtain ⟨_, -, rfl⟩ := hy
    exact Or.inl hab

theorem two_mul_sum_range_sub (n : Nat) :
    2 * ((List.range n).map (fun i => n - i)).sum = n * (n + 1) := by
  induction n with
  | zero => rfl
  | succ k ih =>
    rw [List.range_succ_eq_map, List.map_cons, List.sum_cons, List.map_map]
    have h : ((fun i => k + 1 - i) ∘ Nat.succ) = fun i => k - i := by
      funext i
      simp
    rw [h]
    have e : (k + 1) * (k + 1 + 1) = 2 * (k + 1) + k * (k + 1) := by ring
    rw [Nat.sub_zero, Nat.mul_add, ih, e]

theorem length_planes (n : Nat) : (planes n).length = n * (n - 1) / 2 := by
  unfold planes
  rw [List.length_flatMap]
  have h : (List.length ∘ fun i => (List.range' (i + 1) (n - (i + 1))).map (fun j => (i, j))) =
      fun i => (n - 1) - i := by
    funext i
    simp only [Function.comp_apply, List.length_map, List.length_range']
    omega
  rw [h]
  have h2 := two_mul_sum_range_sub (n - 1)
  rcases n with _ | k
  · rfl
  · simp only [Nat.add_sub_cancel] at h2 ⊢
    rw [Nat.mul_comm (k + 1) k, ← h2]
    omega

theorem length_rotList {α : Type} [Field α] (cosA sinA : α) (i j : Nat) (l : List α) :
    (rotList cosA sinA i j l).length = l.length := by
  simp [rotList]

theorem rotateCoords_eq {α : Type} [Field α] (cosA sinA : α) (i j : Nat) (p : PointND α)
    (hi : i < p.coords.length) (hj : j < p.coords.length) :
    rotateCoords cosA sinA i j p = some ⟨rotList cosA sinA i j p.coords⟩ := by
  unfold rotateCoords rotList
  simp [List.getElem?_eq_getElem hi, List.getElem?_eq_getElem hj]

theorem rotateVertices_eq {α : Type} [Field α] (cosA sinA : α) (i j m : Nat)
    (hi : i < m) (hj : j < m) (vs : List (PointND α))
    (hv : ∀ p ∈ vs, p.coords.length = m) :
    rotateVertices cosA sinA i j vs =
      some (vs.map (fun p => ⟨rotList cosA sinA i j p.coords⟩)) := by
  induction vs with
  | nil => rfl
  | cons p ps ih =>
    have hp := hv p (List.mem_cons_self p ps)
    rw [rotateVertices, rotateCoords_eq cosA sinA i j p (by omega) (by omega)]
    simp only
    rw [ih (fun q hq => hv q (List.mem_cons_of_mem p hq))]
    rfl

theorem length_setAngles {α : Type} [Field α] (t : α) (n : Int) (k len : Nat) (r : List α) :
    (setAngles t n k len r).length = r.length := by
  induction len generalizing k r with
  | zero => rfl
  | succ len ih => rw [setAngles, ih, List.length_set]

theorem map_rotAll_cons {α : Type} [Field α] (cosF sinF : α → α) (t : α) (n : Int)
    (p : Nat × Nat) (ps : List (Nat × Nat)) (k : Nat) (vs : List (PointND α)) :
    (vs.map (fun q => (⟨rotList (cosF (planeAngle t n k)) (sinF (planeAngle t n k)) p.1 p.2
        q.coords⟩ : PointND α))).map
        (fun q => (⟨rotAll cosF sinF t n ps (k + 1) q.coords⟩ : PointND α)) =
      vs.map (fun q => (⟨rotAll cosF sinF t n (p :: ps) k q.coords⟩ : PointND α)) := by
  rw [List.map_map]
  rfl

/-- One pass over a list of planes inside the cube, started where the table has
room for all of them, never fails; the state it reaches is given by `setAngles`
and `rotAll`. -/
theorem foldlM_rotatePlane {α : Type} [Field α] (cosF sinF : α → α) (t : α) (n : Int)
    (m : Nat) (ps : List (Nat × Nat)) (hps : ∀ p ∈ ps, p.1 < m ∧ p.2 < m)
    (s : RotState α) (hs : s.angleIdx + ps.length ≤ s.rotations.length)
    (hv : ∀ p ∈ s.vertices, p.coords.length = m) :
    ps.foldlM (fun s p => rotatePlane cosF sinF t n p.1 p.2 s) s =
      some
        { angleIdx := s.angleIdx + ps.length
          rotations := setAngles t n s.angleIdx ps.length s.rotations
          vertices := s.vertices.map (fun q => ⟨rotAll cosF sinF t n ps s.angleIdx q.coords⟩) } := by
  induction ps generalizing s with
  | nil =>
    rcases s with ⟨a, r, vs⟩
    simp [setAngles, rotAll]
  | cons p ps ih =>
    rcases s with ⟨a, r, vs⟩
    have hp := hps p (List.mem_cons_self p ps)
    simp only [List.length_cons] at hs
    have ha : a < r.length := by omega
    rw [List.foldlM_cons]
    have hstep : rotatePlane cosF sinF t n p.1 p.2 ⟨a, r, vs⟩ =
        some ⟨a + 1, r.set a (planeAngle t n a),
          vs.map (fun q => ⟨rotList (cosF (planeAngle t n a)) (sinF (planeAngle t n a))
            p.1 p.2 q.coords⟩)⟩ := by
      unfold rotatePlane
      simp only
      rw [if_pos ha]
      rw [show t * ((a + 1 : Nat) : α) / (n : α) = planeAngle t n a from rfl,
        rotateVertices_eq _ _ p.1 p.2 m hp.1 hp.2 vs hv]
    rw [hstep]
    show List.foldlM _ _ ps = _
    rw [ih (fun q hq => hps q (List.mem_cons_of_mem p hq))]
    · simp only [List.length_cons, map_rotAll_cons, setAngles]
      congr 2
      omega
    · simp only [List.length_set]
      omega
    · intro q hq
      simp only [List.mem_map] at hq
      obtain ⟨q0, hq0, rfl⟩ := hq
      simp only [length_rotList]
      exact hv q0 hq0

/-- On a valid cube `Rotate` returns; the table and the vertices it leaves are
given by `setAngles` and `rotAll` over `planes`. -/
theorem Rotate_eq {α : Type} [Field α] (cosF sinF : α → α) (h : Hypercube α)
    (hv : Valid h) (t : α) :
    Rotate cosF sinF h t =
      some
        { h with
          rotations :=
            setAngles t h.n 0 (h.n.toNat * (h.n.toNat - 1) / 2) h.rotations
          vertices :=
            h.vertices.map
              (fun q => ⟨rotAll cosF sinF t h.n (planes h.n.toNat) 0 q.coords⟩) } := by
  obtain ⟨h1, h63, hc, hr⟩ := hv
  have hw : (wrap64 (h.n - 1)).toNat = h.n.toNat - 1 := by
    rw [wrap64_of_range _ (by omega) (by omega)]
    omega
  unfold Rotate
  rw [hw]
  unfold rotateRow
  rw [rotate_loops_eq cosF sinF t h.n h.n.toNat,
    foldlM_rotatePlane cosF sinF t h.n h.n.toNat (planes h.n.toNat)
      (fun p hp => ⟨by have := mem_planes _ p hp; omega, (mem_planes _ p hp).2⟩)
      ⟨0, h.rotations, h.vertices⟩
      (by simp only [length_planes, hr]; omega) hc]
  simp only [length_planes]

theorem getElem?_setAngles {α : Type} [Field α] (t : α) (n : Int) (a len : Nat) (r : List α)
    (k : Nat) :
    (setAngles t n a len r)[k]? =
      if a ≤ k ∧ k < a + len ∧ k < r.length then some (planeAngle t n k) else r[k]? := by
  induction len generalizing a r with
  | zero =>
    rw [setAngles, if_neg (by omega)]
  | succ len ih =>
    rw [setAngles, ih, List.length_set]
    by_cases hk : a = k
    · subst hk
      rw [if_neg (by omega)]
      by_cases hl : a < r.length
      · rw [if_pos ⟨le_refl a, by omega, hl⟩, List.getElem?_set_self hl]
      · rw [if_neg (by omega), List.set_eq_of_length_le (by omega)]
    · rw [List.getElem?_set_ne hk]
      by_cases hc : a + 1 ≤ k ∧ k < a + 1 + len ∧ k < r.length
      · rw [if_pos hc, if_pos ⟨by omega, by omega, hc.2.2⟩]
      · rw [if_neg hc, if_neg (by omega)]

theorem setAngles_full {α : Type} [Field α] (t : α) (n : Int) (r : List α) :
    setAngles t n 0 r.length r = (List.range r.length).map (planeAngle t n) := by
  apply List.ext_getElem?
  intro k
  rw [getElem?_setAngles, List.getElem?_map]
  by_cases hk : k < r.length
  · rw [if_pos ⟨Nat.zero_le k, by omega, hk⟩, List.getElem?_range hk]
    rfl
  · rw [if_neg (by omega), List.getElem?_eq_none (by omega),
      List.getElem?_eq_none (by simp; omega)]
    rfl

/-! ## Rotation by angle zero -/

theorem set_getD_self {α : Type} (l : List α) (i : Nat) (d : α) : l.set i (l.getD i d) = l := by
  apply List.ext_getElem?
  intro k
  by_cases hk : i = k
  · subst hk
    by_cases hl : i < l.length
    · rw [List.getElem?_set_self hl, List.getD_eq_getElem l d hl, List.getElem?_eq_getElem hl]
    · rw [List.set_eq_of_length_le (by omega)]
  · rw [List.getElem?_set_ne hk]

theorem rotList_one_zero {α : Type} [Field α] (i j : Nat) (l : List α) :
    rotList 1 0 i j l = l := by
  unfold rotList
  simp only [mul_one, mul_zero, sub_zero, zero_add]
  rw [set_getD_self, set_getD_self]

theorem planeAngle_zero {α : Type} [Field α] (n : Int) (k : Nat) :
    planeAngle (0 : α) n k = 0 := by
  simp [planeAngle]

theorem rotAll_zero {α : Type} [Field α] (cosF sinF : α → α) (hc : cosF 0 = 1)
    (hs : sinF 0 = 0) (n : Int) (ps : List (Nat × Nat)) (k : Nat) (l : List α) :
    rotAll cosF sinF 0 n ps k l = l := by
  induction ps generalizing k l with
  | nil => rfl
  | cons p ps ih => rw [rotAll, planeAngle_zero, hc, hs, rotList_one_zero, ih]

/-! ## Rotation preserves the norm -/

theorem sum_map_set {α : Type} [Field α] (f : α → α) (l : List α) (i : Nat)
    (hi : i < l.length) (a : α) :
    ((l.set i a).map f).sum = (l.map f).sum - f (l.getD i 0) + f a := by
  induction l generalizing i with
  | nil => simp at hi
  | cons x xs ih =>
    cases i with
    | zero =>
      simp only [List.set_cons_zero, List.map_cons, List.sum_cons, List.getD_cons_zero]
      ring
    | succ k =>
      simp only [List.length_cons, Nat.add_lt_add_iff_right] at hi
      simp only [List.set_cons_succ, List.map_cons, List.sum_cons, ih k hi,
        List.getD_cons_succ]
      ring

theorem getD_set_ne {α : Type} (l : List α) (i j : Nat) (hij : i ≠ j) (a d : α) :
    (l.set i a).getD j d = l.getD j d := by
  simp only [List.getD_eq_getElem?_getD, List.getElem?_set_ne hij]

theorem sumSq_rotList {α : Type} [Field α] (cosA sinA : α)
    (hcs : cosA * cosA + sinA * sinA = 1) (i j : Nat) (hij : i ≠ j) (l : List α)
    (hi : i < l.length) (hj : j < l.length) :
    ((rotList cosA sinA i j l).map (fun c => c * c)).sum = (l.map (fun c => c * c)).sum := by
  unfold rotList
  rw [sum_map_set _ _ j (by rw [List.length_set]; exact hj), sum_map_set _ _ i hi,
    getD_set_ne l i j hij]
  have e : ∀ a b : α, (a * cosA - b * sinA) * (a * cosA - b * sinA) +
      (a * sinA + b * cosA) * (a * sinA + b * cosA) =
      (a * a + b * b) * (cosA * cosA + sinA * sinA) := by
    intro a b
    ring
  have e2 := e (l.getD i 0) (l.getD j 0)
  rw [hcs, mul_one] at e2
  linear_combination e2

theorem sumSq_rotAll {α : Type} [Field α] (cosF sinF : α → α)
    (hcs : ∀ a, cosF a * cosF a + sinF a * sinF a = 1) (t : α) (n : Int) (m : Nat)
    (ps : List (Nat × Nat)) (hps : ∀ p ∈ ps, p.1 < p.2 ∧ p.2 < m) (k : Nat) (l : List α)
    (hl : l.length = m) :
    ((rotAll cosF sinF t n ps k l).map (fun c => c * c)).sum =
      (l.map (fun c => c * c)).sum := by
  induction ps generalizing k l with
  | nil => rfl
  | cons p ps ih =>
    have hp := hps p (List.mem_cons_self p ps)
    rw [rotAll, ih (fun q hq => hps q (List.mem_cons_of_mem p hq)) _ _
      (by rw [length_rotList]; exact hl),
      sumSq_rotList _ _ (hcs _) p.1 p.2 (by omega) l (by omega) (by omega)]

/-! ## Claims on rotation -/

theorem valid_sampleSquare (α : Type) [Field α] : Valid (sampleSquare α) := by
  unfold Valid sampleSquare
  simp

theorem valid_sampleCube (α : Type) [Field α] : Valid (sampleCube α) := by
  unfold Valid sampleCube
  simp

theorem sampleCube_eq (α : Type) [Field α] :
    (NewHypercube 3 : Option (Hypercube α)) = some (sampleCube α) := rfl

/-- C7: `Rotate(0)` is the identity on vertex coordinates: on every valid cube, with
coordinates taken as exact reals, `Rotate(0)` returns and leaves the coordinate
list of every vertex as it was. -/
theorem Rotate_zero (h : Hypercube ℝ) (hv : Valid h) :
    ∃ h1 : Hypercube ℝ, Rotate Real.cos Real.sin h 0 = some h1 ∧
      h1.vertices = h.vertices := by
  refine ⟨_, Rotate_eq Real.cos Real.sin h hv 0, ?_⟩
  simp only [rotAll_zero Real.cos Real.sin Real.cos_zero Real.sin_zero]
  exact List.map_id _

theorem Rotate_zero_witness :
    Valid (sampleSquare ℝ) ∧
      ∃ h1 : Hypercube ℝ, Rotate Real.cos Real.sin (sampleSquare ℝ) 0 = some h1 ∧
        h1.vertices = (sampleSquare ℝ).vertices :=
  ⟨valid_sampleSquare ℝ, Rotate_zero (sampleSquare ℝ) (valid_sampleSquare ℝ)⟩

/-- C8: `Rotate` is norm-preserving: on every valid cube and for every real `t`,
with coordinates taken as exact reals, `Rotate(t)` returns a cube with the same
number of vertices, and the sum of the squares of the coordinates of every vertex
is the same after the call as before. -/
theorem Rotate_normSq (h : Hypercube ℝ) (hv : Valid h) (t : ℝ) :
    ∃ h1 : Hypercube ℝ, Rotate Real.cos Real.sin h t = some h1 ∧
      h1.vertices.length = h.vertices.length ∧
      ∀ (v : Nat) (p q : PointND ℝ), h.vertices[v]? = some p → h1.vertices[v]? = some q →
        q.coords.length = p.coords.length ∧ normSq q = normSq p := by
  refine ⟨_, Rotate_eq Real.cos Real.sin h hv t, ?_, ?_⟩
  · simp only [List.length_map]
  · intro v p q hp hq
    simp only [List.getElem?_map, hp, Option.map_some'] at hq
    have hq1 := (Option.some.inj hq).symm
    subst hq1
    have hmem : p ∈ h.vertices := List.getElem?_mem hp
    have hcs : ∀ a : ℝ, Real.cos a * Real.cos a + Real.sin a * Real.sin a = 1 := by
      intro a
      have := Real.cos_sq_add_sin_sq a
      nlinarith
    refine ⟨?_, ?_⟩
    · clear hq hp hmem hcs
      generalize planes h.n.toNat = ps
      generalize (0 : Nat) = k
      generalize p.coords = l
      induction ps generalizing k l with
      | nil => rfl
      | cons x xs ih => rw [rotAll, ih, length_rotList]
    · exact sumSq_rotAll Real.cos Real.sin hcs t h.n h.n.toNat (planes h.n.toNat)
        (mem_planes h.n.toNat) 0 p.coords (hv.2.2.1 p hmem)

theorem Rotate_normSq_witness :
    Valid (sampleSquare ℝ) ∧
      ∃ h1 : Hypercube ℝ, Rotate Real.cos Real.sin (sampleSquare ℝ) 1 = some h1 ∧
        h1.vertices.length = (sampleSquare ℝ).vertices.length ∧
        ∀ (v : Nat) (p q : PointND ℝ), (sampleSquare ℝ).vertices[v]? = some p →
          h1.vertices[v]? = some q →
          q.coords.length = p.coords.length ∧ normSq q = normSq p :=
  ⟨valid_sampleSquare ℝ, Rotate_normSq (sampleSquare ℝ) (valid_sampleSquare ℝ) 1⟩

theorem length_rotAll {α : Type} [Field α] (cosF sinF : α → α) (t : α) (n : Int)
    (ps : List (Nat × Nat)) (k : Nat) (l : List α) :
    (rotAll cosF sinF t n ps k l).length = l.length := by
  induction ps generalizing k l with
  | nil => rfl
  | cons x xs ih => rw [rotAll, ih, length_rotList]

/-- The cube `Rotate` returns on a valid cube is valid. -/
theorem valid_Rotate {α : Type} [Field α] (cosF sinF : α → α) (h h1 : Hypercube α)
    (hv : Valid h) (t : α) (hr : Rotate cosF sinF h t = some h1) : Valid h1 := by
  rw [Rotate_eq cosF sinF h hv t] at hr
  have e := Option.some.inj hr
  subst e
  obtain ⟨h1, h63, hc, hl⟩ := hv
  refine ⟨h1, h63, ?_, ?_⟩
  · intro p hp
    simp only [List.mem_map] at hp
    obtain ⟨q, hq, rfl⟩ := hp
    simp only [length_rotAll]
    exact hc q hq
  · simp only [length_setAngles]
    exact hl

/-- The vertices `Rotate` leaves on a valid cube: each coordinate list has gone
through the plane rotations of the call, whatever the other vertices hold. -/
theorem Rotate_vertices {α : Type} [Field α] (cosF sinF : α → α) (h : Hypercube α)
    (hv : Valid h) (t : α) :
    ∃ h1 : Hypercube α, Rotate cosF sinF h t = some h1 ∧ Valid h1 ∧ h1.n = h.n ∧
      h1.vertices =
        h.vertices.map (fun q => ⟨rotAll cosF sinF t h.n (planes h.n.toNat) 0 q.coords⟩) :=
  ⟨_, Rotate_eq cosF sinF h hv t,
    valid_Rotate cosF sinF h _ hv t (Rotate_eq cosF sinF h hv t), rfl, rfl⟩

/-- With `n` an `int` that is at least 1, the loops of `Rotate` are one pass over
`planes n`. -/
theorem Rotate_eq_pass {α : Type} [Field α] (cosF sinF : α → α) (h : Hypercube α)
    (h1 : 1 ≤ h.n) (h63 : h.n < 2 ^ 63) (t : α) :
    Rotate cosF sinF h t =
      ((planes h.n.toNat).foldlM (fun s p => rotatePlane cosF sinF t h.n p.1 p.2 s)
        ⟨0, h.rotations, h.vertices⟩).map
        (fun s => { h with rotations := s.rotations, vertices := s.vertices }) := by
  have hw : (wrap64 (h.n - 1)).toNat = h.n.toNat - 1 := by
    rw [wrap64_of_range _ (by omega) (by omega)]
    omega
  unfold Rotate
  rw [hw]
  unfold rotateRow
  rw [rotate_loops_eq cosF sinF t h.n h.n.toNat]
  cases (planes h.n.toNat).foldlM (fun s p => rotatePlane cosF sinF t h.n p.1 p.2 s)
    ⟨0, h.rotations, h.vertices⟩ <;> rfl

theorem planeAngle_real (t : ℝ) (n : Int) (k : Nat) :
    planeAngle t n k = t * ((k : ℝ) + 1) / (n : ℝ) := by
  unfold planeAngle
  push_cast
  rfl

/-- C9: after `Rotate(t)` on a valid cube of dimension `n`, the rotation table still
has length `n(n-1)/2` and every slot `k` holds `t * (k+1) / n`, whatever it held
before.  The loops are one pass over `planes n`, the list of the `n(n-1)/2` pairs
`(i, j)`, `i < j < n`, in row-major order, and after the first `k` planes of the
pass the counter is `k`, the slots below `k` hold their angles and the slots from
`k` on are untouched: the `k`-th plane writes slot `k`, and each slot is written
once. -/
theorem Rotate_table (h : Hypercube ℝ) (hv : Valid h) (t : ℝ) :
    ∃ h1 : Hypercube ℝ, Rotate Real.cos Real.sin h t = some h1 ∧
      h1.rotations =
        (List.range (h.n.toNat * (h.n.toNat - 1) / 2)).map
          (fun (k : Nat) => t * ((k : ℝ) + 1) / (h.n : ℝ)) ∧
      Rotate Real.cos Real.sin h t =
        ((planes h.n.toNat).foldlM
          (fun s p => rotatePlane Real.cos Real.sin t h.n p.1 p.2 s)
          ⟨0, h.rotations, h.vertices⟩).map
          (fun s => { h with rotations := s.rotations, vertices := s.vertices }) ∧
      (planes h.n.toNat).length = h.n.toNat * (h.n.toNat - 1) / 2 ∧
      (∀ i j : Nat, (i, j) ∈ planes h.n.toNat ↔ i < j ∧ j < h.n.toNat) ∧
      (planes h.n.toNat).Pairwise (fun p q => p.1 < q.1 ∨ (p.1 = q.1 ∧ p.2 < q.2)) ∧
      ∀ k : Nat, k ≤ h.n.toNat * (h.n.toNat - 1) / 2 →
        ∃ s : RotState ℝ,
          ((planes h.n.toNat).take k).foldlM
            (fun s p => rotatePlane Real.cos Real.sin t h.n p.1 p.2 s)
            ⟨0, h.rotations, h.vertices⟩ = some s ∧
          s.angleIdx = k ∧
          (∀ k1 : Nat, k1 < k → s.rotations[k1]? = some (t * ((k1 : ℝ) + 1) / (h.n : ℝ))) ∧
          (∀ k1 : Nat, k ≤ k1 → s.rotations[k1]? = h.rotations[k1]?) := by
  refine ⟨_, Rotate_eq Real.cos Real.sin h hv t, ?_,
    Rotate_eq_pass Real.cos Real.sin h hv.1 hv.2.1 t, length_planes _,
    mem_planes_iff _, pairwise_planes _, ?_⟩
  · show setAngles t h.n 0 (h.n.toNat * (h.n.toNat - 1) / 2) h.rotations = _
    rw [← hv.2.2.2, setAngles_full]
    apply List.map_congr_left
    intro k _
    exact planeAngle_real t h.n k
  · intro k hk
    have hlen : ((planes h.n.toNat).take k).length = k := by
      rw [List.length_take, length_planes]
      omega
    have hrun := foldlM_rotatePlane Real.cos Real.sin t h.n h.n.toNat
      ((planes h.n.toNat).take k)
      (fun p hp => by
        have := mem_planes _ p (List.mem_of_mem_take hp)
        exact ⟨by omega, this.2⟩)
      ⟨0, h.rotations, h.vertices⟩
      (by simp only [hlen, hv.2.2.2]; omega) hv.2.2.1
    rw [hlen] at hrun
    refine ⟨_, hrun, by simp, ?_, ?_⟩
    · intro k1 hk1
      show (setAngles t h.n 0 k h.rotations)[k1]? = _
      rw [getElem?_setAngles, if_pos ⟨Nat.zero_le k1, by omega, by rw [hv.2.2.2]; omega⟩,
        planeAngle_real]
    · intro k1 hk1
      show (setAngles t h.n 0 k h.rotations)[k1]? = _
      rw [getElem?_setAngles, if_neg (by omega)]

theorem Rotate_table_witness :
    Valid (sampleCube ℝ) ∧
      ∃ h1 : Hypercube ℝ, Rotate Real.cos Real.sin (sampleCube ℝ) 6 = some h1 ∧
        h1.rotations =
          (List.range ((sampleCube ℝ).n.toNat * ((sampleCube ℝ).n.toNat - 1) / 2)).map
            (fun (k : Nat) => 6 * ((k : ℝ) + 1) / ((sampleCube ℝ).n : ℝ)) :=
  ⟨valid_sampleCube ℝ,
    let ⟨h1, hr, ht, _⟩ := Rotate_table (sampleCube ℝ) (valid_sampleCube ℝ) 6
    ⟨h1, hr, ht⟩⟩

/-! ## Rotation is not additive in dimension 3 -/

theorem planes_three : planes 3 = [(0, 1), (0, 2), (1, 2)] := by decide

/-- The three plane rotations of dimension 3 on a coordinate triple. -/
theorem rotAll_three {α : Type} [Field α] (cosF sinF : α → α) (t x y z : α) :
    rotAll cosF sinF t 3 [(0, 1), (0, 2), (1, 2)] 0 [x, y, z] =
      [(x * cosF (planeAngle t 3 0) - y * sinF (planeAngle t 3 0)) * cosF (planeAngle t 3 1) -
          z * sinF (planeAngle t 3 1),
        (x * sinF (planeAngle t 3 0) + y * cosF (planeAngle t 3 0)) * cosF (planeAngle t 3 2) -
          ((x * cosF (planeAngle t 3 0) - y * sinF (planeAngle t 3 0)) *
              sinF (planeAngle t 3 1) + z * cosF (planeAngle t 3 1)) *
            sinF (planeAngle t 3 2),
        (x * sinF (planeAngle t 3 0) + y * cosF (planeAngle t 3 0)) * sinF (planeAngle t 3 2) +
          ((x * cosF (planeAngle t 3 0) - y * sinF (planeAngle t 3 0)) *
              sinF (planeAngle t 3 1) + z * cosF (planeAngle t 3 1)) *
            cosF (planeAngle t 3 2)] := rfl

theorem cos_three_pi_div_two : Real.cos (3 * Real.pi / 2) = 0 := by
  rw [show 3 * Real.pi / 2 = Real.pi / 2 + Real.pi by ring, Real.cos_add_pi,
    Real.cos_pi_div_two, neg_zero]

theorem sin_three_pi_div_two : Real.sin (3 * Real.pi / 2) = -1 := by
  rw [show 3 * Real.pi / 2 = Real.pi / 2 + Real.pi by ring, Real.sin_add_pi,
    Real.sin_pi_div_two]

theorem cos_three_pi : Real.cos (3 * Real.pi) = -1 := by
  rw [show 3 * Real.pi = Real.pi + 2 * Real.pi by ring, Real.cos_add_two_pi, Real.cos_pi]

theorem sin_three_pi : Real.sin (3 * Real.pi) = 0 := by
  rw [show 3 * Real.pi = Real.pi + 2 * Real.pi by ring, Real.sin_add_two_pi, Real.sin_pi]

/-- `Rotate(3π/2)` in dimension 3 sends `(x, y, z)` to `(y, -z, -x)`. -/
theorem rotAll_three_quarter (x y z : ℝ) :
    rotAll Real.cos Real.sin (3 * Real.pi / 2) 3 (planes 3) 0 [x, y, z] = [y, -z, -x] := by
  have a0 : planeAngle (3 * Real.pi / 2) 3 0 = Real.pi / 2 := by
    rw [planeAngle_real]; push_cast; ring
  have a1 : planeAngle (3 * Real.pi / 2) 3 1 = Real.pi := by
    rw [planeAngle_real]; push_cast; ring
  have a2 : planeAngle (3 * Real.pi / 2) 3 2 = 3 * Real.pi / 2 := by
    rw [planeAngle_real]; push_cast; ring
  rw [planes_three, rotAll_three, a0, a1, a2, Real.cos_pi_div_two, Real.sin_pi_div_two,
    Real.cos_pi, Real.sin_pi, cos_three_pi_div_two, sin_three_pi_div_two]
  simp

/-- `Rotate(3π)` in dimension 3 sends `(x, y, z)` to `(-x, y, -z)`. -/
theorem rotAll_three_pi (x y z : ℝ) :
    rotAll Real.cos Real.sin (3 * Real.pi / 2 + 3 * Real.pi / 2) 3 (planes 3) 0 [x, y, z] =
      [-x, y, -z] := by
  have a0 : planeAngle (3 * Real.pi / 2 + 3 * Real.pi / 2) 3 0 = Real.pi := by
    rw [planeAngle_real]; push_cast; ring
  have a1 : planeAngle (3 * Real.pi / 2 + 3 * Real.pi / 2) 3 1 = 2 * Real.pi := by
    rw [planeAngle_real]; push_cast; ring
  have a2 : planeAngle (3 * Real.pi / 2 + 3 * Real.pi / 2) 3 2 = 3 * Real.pi := by
    rw [planeAngle_real]; push_cast; ring
  rw [planes_three, rotAll_three, a0, a1, a2, Real.cos_pi, Real.sin_pi, Real.cos_two_pi,
    Real.sin_two_pi, cos_three_pi, sin_three_pi]
  simp

/-- C10: rotation does not compose additively: starting from `NewHypercube(3)`, the
vertex coordinates after `Rotate(3π/2)` followed by `Rotate(3π/2)` differ from the
vertex coordinates after the single call `Rotate(3π/2 + 3π/2)`; vertex 1 ends at
`(1, 1, 1)` the first way and at `(-1, -1, 1)` the second. -/
theorem Rotate_not_additive :
    ∃ (t1 t2 : ℝ) (h0 h1 h2 h3 : Hypercube ℝ),
      NewHypercube 3 = some h0 ∧
      Rotate Real.cos Real.sin h0 t1 = some h1 ∧
      Rotate Real.cos Real.sin h1 t2 = some h2 ∧
      Rotate Real.cos Real.sin h0 (t1 + t2) = some h3 ∧
      h2.vertices[1]? = some ⟨[1, 1, 1]⟩ ∧
      h3.vertices[1]? = some ⟨[-1, -1, 1]⟩ ∧
      h2.vertices ≠ h3.vertices := by
  obtain ⟨h1, r1, hv1, hn1, e1⟩ :=
    Rotate_vertices Real.cos Real.sin (sampleCube ℝ) (valid_sampleCube ℝ) (3 * Real.pi / 2)
  obtain ⟨h2, r2, -, -, e2⟩ := Rotate_vertices Real.cos Real.sin h1 hv1 (3 * Real.pi / 2)
  obtain ⟨h3, r3, -, -, e3⟩ :=
    Rotate_vertices Real.cos Real.sin (sampleCube ℝ) (valid_sampleCube ℝ)
      (3 * Real.pi / 2 + 3 * Real.pi / 2)
  rw [hn1, e1] at e2
  have hn : (sampleCube ℝ).n = 3 := rfl
  rw [hn] at e2 e3
  have hp : ((3 : Int)).toNat = 3 := rfl
  rw [hp] at e2 e3
  have v2 : h2.vertices[1]? = some ⟨[1, 1, 1]⟩ := by
    rw [e2]
    simp only [sampleCube, List.map_cons, List.getElem?_cons_succ, List.getElem?_cons_zero,
      rotAll_three_quarter]
    simp
  have v3 : h3.vertices[1]? = some ⟨[-1, -1, 1]⟩ := by
    rw [e3]
    simp only [sampleCube, List.map_cons, List.getElem?_cons_succ, List.getElem?_cons_zero,
      rotAll_three_pi]
    simp
  refine ⟨_, _, _, h1, h2, h3, sampleCube_eq ℝ, r1, r2, r3, v2, v3, ?_⟩
  intro hne
  rw [hne, v3] at v2
  have h4 := congrArg (fun p => p.coords[0]?) (Option.some.inj v2)
  simp only [List.getElem?_cons_zero] at h4
  have h5 := Option.some.inj h4
  norm_num at h5

/-! ## Projection on a valid cube -/

theorem projectPoint_eq {α : Type} [Field α] (n : Int) (v : PointND α) (h1 : 1 ≤ n)
    (hl : v.coords.length = n.toNat) :
    projectPoint n v = some (projFormula n v.coords) := by
  have hw : (n - 1).toNat < v.coords.length := by omega
  have h0 : 0 < v.coords.length := by omega
  unfold projectPoint projFormula
  rw [if_pos (by omega), List.getElem?_eq_getElem hw, List.getElem?_eq_getElem h0]
  simp only [List.getD_eq_getElem _ _ hw, List.getD_eq_getElem _ _ h0]
  by_cases c1 : n > 1
  · have k1 : 1 < v.coords.length := by omega
    simp only [if_pos c1, List.getElem?_eq_getElem k1, Option.map_some',
      List.getD_eq_getElem _ _ k1]
    by_cases c2 : n > 2
    · have k2 : 2 < v.coords.length := by omega
      simp only [if_pos c2, List.getElem?_eq_getElem k2, Option.map_some',
        List.getD_eq_getElem _ _ k2]
    · simp only [if_neg c2]
  · have c2 : ¬ n > 2 := by omega
    simp only [if_neg c1, if_neg c2]

theorem projectVertices_eq {α : Type} [Field α] (n : Int) (h1 : 1 ≤ n)
    (vs : List (PointND α)) (hv : ∀ p ∈ vs, p.coords.length = n.toNat) :
    projectVertices n vs = some (vs.map (fun p => projFormula n p.coords)) := by
  induction vs with
  | nil => rfl
  | cons p ps ih =>
    rw [projectVertices, projectPoint_eq n p h1 (hv p (List.mem_cons_self p ps))]
    simp only
    rw [ih (fun q hq => hv q (List.mem_cons_of_mem p hq))]
    rfl

/-- On a valid cube `ProjectTo3D` returns, one point per vertex in vertex order. -/
theorem ProjectTo3D_eq {α : Type} [Field α] (h : Hypercube α) (hv : Valid h) :
    ProjectTo3D h = some (h.vertices.map (fun p => projFormula h.n p.coords)) :=
  projectVertices_eq h.n hv.1 h.vertices hv.2.2.1

theorem getElem?_eq_getD_of_lt {α : Type} (l : List α) (k : Nat) (d : α)
    (hk : k < l.length) : l[k]? = some (l.getD k d) := by
  rw [List.getElem?_eq_getElem hk, List.getD_eq_getElem l d hk]

/-- C11: on every valid cube `ProjectTo3D` returns exactly one 3D point per vertex,
in vertex order, and the point of a vertex with coordinates `c` is
`(c[0] * f, (c[1] * f if n > 1 else 0), (c[2] * f if n > 2 else 0))` with
`f = 1 / (c[n-1] + 2)`; every coordinate read is held by the vertex. -/
theorem ProjectTo3D_formula {α : Type} [Field α] (h : Hypercube α) (hv : Valid h) :
    ProjectTo3D h =
        some (h.vertices.map (fun p =>
          (p.coords.getD 0 0 * (1 / (p.coords.getD (h.n - 1).toNat 0 + 2)),
            (if h.n > 1 then p.coords.getD 1 0 * (1 / (p.coords.getD (h.n - 1).toNat 0 + 2))
              else 0),
            (if h.n > 2 then p.coords.getD 2 0 * (1 / (p.coords.getD (h.n - 1).toNat 0 + 2))
              else 0)))) ∧
      ∀ p ∈ h.vertices, ∀ k : Nat, k < h.n.toNat → p.coords[k]? = some (p.coords.getD k 0) := by
  refine ⟨ProjectTo3D_eq h hv, ?_⟩
  intro p hp k hk
  exact getElem?_eq_getD_of_lt p.coords k 0 (by rw [hv.2.2.1 p hp]; exact hk)

theorem ProjectTo3D_formula_witness :
    Valid (sampleCube ℚ) ∧
      ProjectTo3D (sampleCube ℚ) =
        some ((sampleCube ℚ).vertices.map (fun p =>
          (p.coords.getD 0 0 * (1 / (p.coords.getD ((sampleCube ℚ).n - 1).toNat 0 + 2)),
            (if (sampleCube ℚ).n > 1 then
              p.coords.getD 1 0 * (1 / (p.coords.getD ((sampleCube ℚ).n - 1).toNat 0 + 2))
              else 0),
            (if (sampleCube ℚ).n > 2 then
              p.coords.getD 2 0 * (1 / (p.coords.getD ((sampleCube ℚ).n - 1).toNat 0 + 2))
              else 0)))) :=
  ⟨valid_sampleCube ℚ, (ProjectTo3D_formula (sampleCube ℚ) (valid_sampleCube ℚ)).1⟩

theorem projFormula_congr {α : Type} [Field α] (n : Int) (a b : List α)
    (h0 : a[0]? = b[0]?) (h1 : a[1]? = b[1]?) (h2 : a[2]? = b[2]?)
    (hw : a[(n - 1).toNat]? = b[(n - 1).toNat]?) : projFormula n a = projFormula n b := by
  unfold projFormula
  simp only [List.getD_eq_getElem?_getD, h0, h1, h2, hw]

/-- C12: the projection ignores the middle coordinates: for two valid cubes of the
same dimension `n > 3` with the same number of vertices, whose vertices agree
index by index on the coordinates 0, 1, 2 and `n - 1`, `ProjectTo3D` returns the
same list of points. -/
theorem ProjectTo3D_ignores_middle {α : Type} [Field α] (h1 h2 : Hypercube α)
    (hv1 : Valid h1) (hv2 : Valid h2) (hn : h1.n = h2.n) (_h3 : 3 < h1.n)
    (hlen : h1.vertices.length = h2.vertices.length)
    (hag : ∀ (i : Nat) (p q : PointND α), h1.vertices[i]? = some p →
      h2.vertices[i]? = some q →
      p.coords[0]? = q.coords[0]? ∧ p.coords[1]? = q.coords[1]? ∧
        p.coords[2]? = q.coords[2]? ∧
        p.coords[(h1.n - 1).toNat]? = q.coords[(h1.n - 1).toNat]?) :
    ∃ pts : List (α × α × α), ProjectTo3D h1 = some pts ∧ ProjectTo3D h2 = some pts := by
  refine ⟨_, ProjectTo3D_eq h1 hv1, ?_⟩
  rw [ProjectTo3D_eq h2 hv2, ← hn]
  congr 1
  apply List.ext_getElem?
  intro i
  rw [List.getElem?_map, List.getElem?_map]
  by_cases hi : i < h1.vertices.length
  · have hi2 : i < h2.vertices.length := by omega
    have e1 := List.getElem?_eq_getElem hi
    have e2 := List.getElem?_eq_getElem hi2
    obtain ⟨a0, a1, a2, aw⟩ := hag i _ _ e1 e2
    rw [e1, e2, Option.map_some', Option.map_some', projFormula_congr h1.n _ _ a0 a1 a2 aw]
  · rw [List.getElem?_eq_none (by omega), List.getElem?_eq_none (by omega)]

theorem valid_sampleFive (α : Type) [Field α] (m : α) : Valid (sampleFive α m) := by
  unfold Valid sampleFive
  simp

theorem ProjectTo3D_ignores_middle_witness :
    ∃ pts : List (ℚ × ℚ × ℚ), ProjectTo3D (sampleFive ℚ 7) = some pts ∧
      ProjectTo3D (sampleFive ℚ (-4)) = some pts :=
  ProjectTo3D_ignores_middle (sampleFive ℚ 7) (sampleFive ℚ (-4)) (valid_sampleFive ℚ 7)
    (valid_sampleFive ℚ (-4)) rfl (by decide) rfl
    (by
      intro i p q hp hq
      rcases i with _ | i
      · simp only [sampleFive, List.getElem?_cons_zero] at hp hq
        rw [← Option.some.inj hp, ← Option.some.inj hq]
        exact ⟨rfl, rfl, rfl, rfl⟩
      · simp [sampleFive] at hp)

/-! ## Divisor of the projection -/

theorem NewHypercube_of_lt_one {α : Type} [Zero α] [One α] [Neg α] (d : Int) (hd : d < 1) :
    (NewHypercube d : Option (Hypercube α)) = NewHypercube 1 := by
  unfold NewHypercube
  simp only [hd, if_true]
  rfl

theorem mem_genCoords {α : Type} [One α] [Neg α] (d i : Int) (x : α)
    (hx : x ∈ (genCoords d i : List α)) : x = -1 ∨ x = 1 := by
  unfold genCoords at hx
  rw [List.mem_map] at hx
  obtain ⟨k, -, rfl⟩ := hx
  by_cases hb : Int.land i (shl 1 (k : Int)) = 0
  · left; rw [if_pos hb]
  · right; rw [if_neg hb]

theorem length_genCoords {α : Type} [One α] [Neg α] (d i : Int) :
    (genCoords d i : List α).length = d.toNat := by
  simp [genCoords]

/-- Every cube `NewHypercube` returns has `n ≥ 1`, and each of its vertices holds
`n` coordinates, all of them `-1` or `1`. -/
theorem NewHypercube_fresh {α : Type} [Zero α] [One α] [Neg α] (d : Int) (h : Hypercube α)
    (hh : NewHypercube d = some h) :
    1 ≤ h.n ∧ ∀ p ∈ h.vertices, p.coords.length = h.n.toNat ∧
      ∀ x ∈ p.coords, x = -1 ∨ x = 1 := by
  have key : ∀ e : Int, 1 ≤ e → NewHypercube e = some h →
      1 ≤ h.n ∧ ∀ p ∈ h.vertices, p.coords.length = h.n.toNat ∧
        ∀ x ∈ p.coords, x = -1 ∨ x = 1 := by
    intro e he hhe
    obtain ⟨-, hn, hv, -⟩ := NewHypercube_some e he h hhe
    refine ⟨by omega, ?_⟩
    intro p hp
    rw [hv] at hp
    unfold genVertices at hp
    rw [List.mem_map] at hp
    obtain ⟨i, -, rfl⟩ := hp
    exact ⟨by rw [hn]; exact length_genCoords e i, fun x hx => mem_genCoords e i x hx⟩
  by_cases hd : d < 1
  · rw [NewHypercube_of_lt_one d hd] at hh
    exact key 1 (le_refl 1) hh
  · exact key d (by omega) hh

theorem abs_mul_inv_le (x w : ℝ) (hw : 1 ≤ w + 2) : |x * (1 / (w + 2))| ≤ |x| := by
  have hpos : 0 < w + 2 := by linarith
  have h1 : 0 ≤ 1 / (w + 2) := by positivity
  have h2 : 1 / (w + 2) ≤ 1 := by
    rw [div_le_one hpos]
    exact hw
  rw [abs_mul, abs_of_nonneg h1]
  calc |x| * (1 / (w + 2)) ≤ |x| * 1 := mul_le_mul_of_nonneg_left h2 (abs_nonneg x)
    _ = |x| := mul_one _

/-- Bounds on the point `projFormula` gives when the last coordinate is at least `-1`. -/
theorem projFormula_bounded (n : Int) (l : List ℝ) (hw : 1 ≤ l.getD (n - 1).toNat 0 + 2) :
    |(projFormula n l).1| ≤ |l.getD 0 0| ∧ |(projFormula n l).2.1| ≤ |l.getD 1 0| ∧
      |(projFormula n l).2.2| ≤ |l.getD 2 0| := by
  unfold projFormula
  refine ⟨abs_mul_inv_le _ _ hw, ?_, ?_⟩
  · by_cases c1 : n > 1
    · simp only [if_pos c1]
      exact abs_mul_inv_le _ _ hw
    · simp only [if_neg c1, abs_zero]
      exact abs_nonneg _
  · by_cases c2 : n > 2
    · simp only [if_pos c2]
      exact abs_mul_inv_le _ _ hw
    · simp only [if_neg c2, abs_zero]
      exact abs_nonneg _

theorem projection_bounded (h : Hypercube ℝ) (h1 : 1 ≤ h.n)
    (hc : ∀ p ∈ h.vertices, p.coords.length = h.n.toNat)
    (hw : ∀ p ∈ h.vertices, ∀ w : ℝ, p.coords[(h.n - 1).toNat]? = some w → -1 ≤ w ∧ w ≤ 1) :
    ∃ pts : List (ℝ × ℝ × ℝ), ProjectTo3D h = some pts ∧
      pts.length = h.vertices.length ∧
      ∀ (i : Nat) (p : PointND ℝ) (q : ℝ × ℝ × ℝ), h.vertices[i]? = some p →
        pts[i]? = some q →
        ∃ w : ℝ, p.coords[(h.n - 1).toNat]? = some w ∧ 1 ≤ w + 2 ∧ w + 2 ≠ 0 ∧
          |q.1| ≤ |p.coords.getD 0 0| ∧ |q.2.1| ≤ |p.coords.getD 1 0| ∧
          |q.2.2| ≤ |p.coords.getD 2 0| := by
  refine ⟨_, projectVertices_eq h.n h1 h.vertices hc, by rw [List.length_map], ?_⟩
  intro i p q hp hq
  rw [List.getElem?_map, hp, Option.map_some'] at hq
  have hq1 := (Option.some.inj hq).symm
  subst hq1
  have hmem : p ∈ h.vertices := List.getElem?_mem hp
  have hlen := hc p hmem
  have hget := getElem?_eq_getD_of_lt p.coords (h.n - 1).toNat 0 (by omega)
  have hb := hw p hmem _ hget
  have hge : 1 ≤ p.coords.getD (h.n - 1).toNat 0 + 2 := by linarith [hb.1]
  exact ⟨_, hget, hge, by linarith, projFormula_bounded h.n p.coords hge⟩

/-- C13: `ProjectTo3D` never divides by zero when the last coordinates lie in
`[-1, 1]`: on every valid cube in which the last coordinate `w` of every vertex
satisfies `-1 ≤ w ≤ 1`, and on every cube `NewHypercube` returns, `ProjectTo3D`
returns one point per vertex, the divisor `w + 2` of each vertex is at least 1,
hence non-zero, and each component of the point has absolute value at most that
of the coordinate it is computed from (0 for a coordinate the vertex lacks). -/
theorem ProjectTo3D_unit_range (h : Hypercube ℝ)
    (hsrc : (Valid h ∧ ∀ p ∈ h.vertices, ∀ w : ℝ,
        p.coords[(h.n - 1).toNat]? = some w → -1 ≤ w ∧ w ≤ 1) ∨
      ∃ d : Int, NewHypercube d = some h) :
    ∃ pts : List (ℝ × ℝ × ℝ), ProjectTo3D h = some pts ∧
      pts.length = h.vertices.length ∧
      ∀ (i : Nat) (p : PointND ℝ) (q : ℝ × ℝ × ℝ), h.vertices[i]? = some p →
        pts[i]? = some q →
        ∃ w : ℝ, p.coords[(h.n - 1).toNat]? = some w ∧ 1 ≤ w + 2 ∧ w + 2 ≠ 0 ∧
          |q.1| ≤ |p.coords.getD 0 0| ∧ |q.2.1| ≤ |p.coords.getD 1 0| ∧
          |q.2.2| ≤ |p.coords.getD 2 0| := by
  rcases hsrc with ⟨hv, hw⟩ | ⟨d, hd⟩
  · exact projection_bounded h hv.1 hv.2.2.1 hw
  · obtain ⟨h1, hf⟩ := NewHypercube_fresh d h hd
    refine projection_bounded h h1 (fun p hp => (hf p hp).1) ?_
    intro p hp w hw
    rcases (hf p hp).2 w (List.getElem?_mem hw) with rfl | rfl <;> norm_num

theorem ProjectTo3D_unit_range_witness :
    ∃ pts : List (ℝ × ℝ × ℝ), ProjectTo3D (sampleCube ℝ) = some pts ∧
      pts.length = (sampleCube ℝ).vertices.length ∧
      ∀ (i : Nat) (p : PointND ℝ) (q : ℝ × ℝ × ℝ), (sampleCube ℝ).vertices[i]? = some p →
        pts[i]? = some q →
        ∃ w : ℝ, p.coords[((sampleCube ℝ).n - 1).toNat]? = some w ∧ 1 ≤ w + 2 ∧
          w + 2 ≠ 0 ∧
          |q.1| ≤ |p.coords.getD 0 0| ∧ |q.2.1| ≤ |p.coords.getD 1 0| ∧
          |q.2.2| ≤ |p.coords.getD 2 0| :=
  ProjectTo3D_unit_range (sampleCube ℝ) (Or.inr ⟨3, sampleCube_eq ℝ⟩)

/-! ## Projection of freshly constructed cubes -/

theorem NewHypercube_one {α : Type} [Field α] :
    (NewHypercube 1 : Option (Hypercube α)) = some ⟨1, [⟨[-1]⟩, ⟨[1]⟩], [(0, 1)], []⟩ := rfl

theorem valid_segment (α : Type) [Field α] :
    Valid (⟨1, [⟨[-1]⟩, ⟨[1]⟩], [(0, 1)], []⟩ : Hypercube α) := by
  unfold Valid
  simp

/-- C15 (amended): `NewHypercube(1)` has 2 vertices and 1 edge, and `ProjectTo3D` on
it returns exactly the two points `(-1, 0, 0)` and `(1/3, 0, 0)`, in that order. -/
theorem dimension_one_end_to_end :
    ∃ h : Hypercube ℝ, NewHypercube 1 = some h ∧ h.vertices.length = 2 ∧
      h.edges.length = 1 ∧ ProjectTo3D h = some [(-1, 0, 0), (1 / 3, 0, 0)] := by
  refine ⟨_, NewHypercube_one, rfl, rfl, ?_⟩
  rw [ProjectTo3D_eq _ (valid_segment ℝ)]
  simp only [List.map_cons, List.map_nil, projFormula, List.getD_cons_zero, sub_self,
    Int.toNat_zero]
  norm_num

/-- C15 as stated fails: on `NewHypercube(1)` the second point `ProjectTo3D` returns
is `(1/3, 0, 0)`, since vertex 1 has `wFactor = 1 / (1 + 2)`; the list returned is
not `(-1, 0, 0)`, `(1, 0, 0)`. -/
theorem dimension_one_not_unit :
    ¬ ∃ h : Hypercube ℝ, NewHypercube 1 = some h ∧ h.vertices.length = 2 ∧
      h.edges.length = 1 ∧ ProjectTo3D h = some [(-1, 0, 0), (1, 0, 0)] := by
  rintro ⟨h, hh, -, -, hp⟩
  have e := Option.some.inj ((show (NewHypercube 1 : Option (Hypercube ℝ)) = _
    from NewHypercube_one).symm.trans hh)
  subst e
  rw [ProjectTo3D_eq _ (valid_segment ℝ)] at hp
  simp only [List.map_cons, List.map_nil, projFormula, List.getD_cons_zero, sub_self,
    Int.toNat_zero] at hp
  have h2 := congrArg (fun l => (l.getD 1 (0, 0, 0)).1) (Option.some.inj hp)
  simp only [List.getD_cons_succ, List.getD_cons_zero] at h2
  norm_num at h2

/-- For `1 ≤ n ≤ 62` the cube `NewHypercube(n)` returns is valid. -/
theorem valid_NewHypercube {α : Type} [Field α] (n : Nat) (h1 : 1 ≤ n) (h62 : n ≤ 62)
    (h : Hypercube α) (hh : NewHypercube (n : Int) = some h) : Valid h := by
  obtain ⟨hn1, hf⟩ := NewHypercube_fresh (n : Int) h hh
  have e := Option.some.inj ((NewHypercube_eq n h1 h62).symm.trans hh)
  have hn : h.n = (n : Int) := by rw [← e]
  have hr : h.rotations.length = n * (n - 1) / 2 := by
    rw [← e]
    exact List.length_replicate _ _
  refine ⟨hn1, by omega, fun p hp => (hf p hp).1, ?_⟩
  rw [hr, hn, Int.toNat_ofNat]

theorem getD_genCoords {α : Type} [Field α] (n i k : Nat) (hn : n ≤ 63) (hk : k < n) :
    (genCoords (n : Int) (i : Int) : List α).getD k 0 = if i.testBit k then 1 else -1 := by
  rw [genCoords_eq n i hn, List.getD_eq_getElem?_getD, List.getElem?_map,
    List.getElem?_range hk]
  rfl

theorem projFormula_of_last {α : Type} [Field α] (n : Int) (h3 : 3 ≤ n) (l : List α)
    (hw : l.getD (n - 1).toNat 0 = -1) :
    projFormula n l = (l.getD 0 0, l.getD 1 0, l.getD 2 0) := by
  have e : (1 : α) / (-1 + 2) = 1 := by
    rw [show (-1 : α) + 2 = 1 by ring, div_one]
  unfold projFormula
  rw [hw, e, if_pos (by omega), if_pos (by omega), mul_one, mul_one, mul_one]

/-- Where `1 << n` does not overflow (and with memory unbounded): for every `n` with
`3 ≤ n ≤ 62`, projecting the freshly
constructed cube `NewHypercube(n)` maps vertex 0, whose coordinates are all `-1`,
to the point `(-1, -1, -1)`, and every vertex whose bit `n - 1` is clear projects
to its own first three coordinates unchanged. -/
theorem fresh_projection {α : Type} [Field α] (n : Nat) (h3 : 3 ≤ n) (h62 : n ≤ 62) :
    ∃ (h : Hypercube α) (pts : List (α × α × α)),
      NewHypercube (n : Int) = some h ∧ ProjectTo3D h = some pts ∧
      h.vertices[0]? = some ⟨List.replicate n (-1)⟩ ∧ pts[0]? = some ((-1 : α), (-1 : α), (-1 : α)) ∧
      ∀ i : Nat, i < 2 ^ n → i.testBit (n - 1) = false →
        ∃ (p : PointND α) (c0 c1 c2 : α), h.vertices[i]? = some p ∧
          p.coords[0]? = some c0 ∧ p.coords[1]? = some c1 ∧ p.coords[2]? = some c2 ∧
          pts[i]? = some (c0, c1, c2) := by
  have hh := NewHypercube_eq (α := α) n (by omega) h62
  have hv := valid_NewHypercube n (by omega) h62 _ hh
  have hvert : ∀ i : Nat, i < 2 ^ n →
      (genVertices (n : Int) ((2 ^ n : Nat) : Int) : List (PointND α))[i]? =
        some ⟨genCoords (n : Int) (i : Int)⟩ := by
    intro i hi
    rw [genVertices_natCast, List.getElem?_map, List.getElem?_range hi]
    rfl
  have hlast : ((n : Int) - 1).toNat = n - 1 := by omega
  have hgen : ∀ i : Nat, i < 2 ^ n → i.testBit (n - 1) = false →
      projFormula (n : Int) (genCoords (n : Int) (i : Int) : List α) =
        ((genCoords (n : Int) (i : Int) : List α).getD 0 0,
          (genCoords (n : Int) (i : Int) : List α).getD 1 0,
          (genCoords (n : Int) (i : Int) : List α).getD 2 0) := by
    intro i _ hb
    apply projFormula_of_last (n : Int) (by omega)
    rw [hlast, getD_genCoords n i (n - 1) (by omega) (by omega), hb]
    rfl
  have hzero : (genCoords (n : Int) ((0 : Nat) : Int) : List α) = List.replicate n (-1) := by
    rw [genCoords_eq n 0 (by omega)]
    simp only [Nat.zero_testBit, Bool.false_eq_true, if_false]
    exact List.map_const' _ _ |>.trans (by rw [List.length_range])
  refine ⟨_, _, hh, ProjectTo3D_eq _ hv, ?_, ?_, ?_⟩
  · show (genVertices (n : Int) ((2 ^ n : Nat) : Int) : List (PointND α))[0]? = _
    rw [hvert 0 (by positivity), hzero]
  · show (List.map _ (genVertices (n : Int) ((2 ^ n : Nat) : Int) : List (PointND α)))[0]? = _
    rw [List.getElem?_map, hvert 0 (by positivity), Option.map_some']
    show some (projFormula (n : Int) (genCoords (n : Int) ((0 : Nat) : Int) : List α)) = _
    rw [hgen 0 (by positivity) (Nat.zero_testBit _), hzero]
    have h0 : (List.replicate n (-1 : α)).getD 0 0 = -1 := by
      rw [List.getD_eq_getElem _ _ (by rw [List.length_replicate]; omega)]
      exact List.getElem_replicate _ _
    have h1 : (List.replicate n (-1 : α)).getD 1 0 = -1 := by
      rw [List.getD_eq_getElem _ _ (by rw [List.length_replicate]; omega)]
      exact List.getElem_replicate _ _
    have h2 : (List.replicate n (-1 : α)).getD 2 0 = -1 := by
      rw [List.getD_eq_getElem _ _ (by rw [List.length_replicate]; omega)]
      exact List.getElem_replicate _ _
    rw [h0, h1, h2]
  · intro i hi hb
    have hl : (genCoords (n : Int) (i : Int) : List α).length = n := by
      rw [length_genCoords, Int.toNat_ofNat]
    refine ⟨⟨genCoords (n : Int) (i : Int)⟩, _, _, _, hvert i hi,
      getElem?_eq_getD_of_lt (genCoords (n : Int) (i : Int) : List α) 0 0 (by omega),
      getElem?_eq_getD_of_lt (genCoords (n : Int) (i : Int) : List α) 1 0 (by omega),
      getElem?_eq_getD_of_lt (genCoords (n : Int) (i : Int) : List α) 2 0 (by omega), ?_⟩
    show (List.map _ (genVertices (n : Int) ((2 ^ n : Nat) : Int) : List (PointND α)))[i]? = _
    rw [List.getElem?_map, hvert i hi, Option.map_some']
    show some (projFormula (n : Int) (genCoords (n : Int) (i : Int) : List α)) = _
    rw [hgen i hi hb]

theorem fresh_projection_witness :
    ∃ (h : Hypercube ℚ) (pts : List (ℚ × ℚ × ℚ)),
      NewHypercube ((5 : Nat) : Int) = some h ∧ ProjectTo3D h = some pts ∧
      h.vertices[0]? = some ⟨List.replicate 5 (-1)⟩ ∧
      pts[0]? = some ((-1 : ℚ), (-1 : ℚ), (-1 : ℚ)) ∧
      ∀ i : Nat, i < 2 ^ 5 → i.testBit (5 - 1) = false →
        ∃ (p : PointND ℚ) (c0 c1 c2 : ℚ), h.vertices[i]? = some p ∧
          p.coords[0]? = some c0 ∧ p.coords[1]? = some c1 ∧ p.coords[2]? = some c2 ∧
          pts[i]? = some (c0, c1, c2) :=
  fresh_projection 5 (by decide) (by decide)

/-- C16 (evaluation at the failing input `NewHypercube(64)`): the cube
`NewHypercube(64)` returns has no vertex, so its projection is empty and holds no
point `(-1, -1, -1)` at index 0. -/
theorem fresh_projection_fails_at_64 :
    (NewHypercube 64 : Option (Hypercube ℚ)) = some ⟨64, [], [], List.replicate 2016 0⟩ ∧
      ProjectTo3D (⟨64, [], [], List.replicate 2016 0⟩ : Hypercube ℚ) = some [] ∧
      ¬ ∃ (h : Hypercube ℚ) (pts : List (ℚ × ℚ × ℚ)),
        NewHypercube ((64 : Nat) : Int) = some h ∧ ProjectTo3D h = some pts ∧
        pts[0]? = some ((-1 : ℚ), (-1 : ℚ), (-1 : ℚ)) := by
  refine ⟨NewHypercube_64, rfl, ?_⟩
  rintro ⟨h, pts, hh, hp, h0⟩
  have e := Option.some.inj ((show (NewHypercube ((64 : Nat) : Int) :
    Option (Hypercube ℚ)) = _ from NewHypercube_64).symm.trans hh)
  subst e
  have e2 := Option.some.inj ((show ProjectTo3D (⟨64, [], [], List.replicate 2016 0⟩ :
    Hypercube ℚ) = some [] from rfl).symm.trans hp)
  subst e2
  exact absurd h0 (by simp)

/-! ## Frame of `Rotate` and `ProjectTo3D` -/

/-- The loop of `ProjectTo3D` hands the cube on as it received it. -/
theorem projectRun_eq {α : Type} [Field α] (h : Hypercube α) (vs : List (PointND α)) :
    projectRun h vs = (projectVertices h.n vs).map (fun pts => (pts, h)) := by
  induction vs with
  | nil => rfl
  | cons v vs ih =>
    rw [projectRun, projectVertices, ih]
    cases projectPoint h.n v with
    | none => rfl
    | some q =>
      cases projectVertices h.n vs with
      | none => rfl
      | some qs => rfl

/-- C17: `Rotate` writes only vertex coordinate values and the rotation table: on
every valid cube and for every `t` (whatever values `cos` and `sin` take), after
`Rotate(t)` the dimension `n`, the edges list, the number of vertices, the number
of coordinates of each vertex and the length of the rotation table are what they
were before the call; `ProjectTo3D` returns its points and leaves the cube as it
was. -/
theorem Rotate_frame {α : Type} [Field α] (cosF sinF : α → α) (h : Hypercube α)
    (hv : Valid h) (t : α) :
    (∃ h1 : Hypercube α, Rotate cosF sinF h t = some h1 ∧ h1.n = h.n ∧
        h1.edges = h.edges ∧ h1.vertices.length = h.vertices.length ∧
        (∀ (i : Nat) (p q : PointND α), h.vertices[i]? = some p →
          h1.vertices[i]? = some q → q.coords.length = p.coords.length) ∧
        h1.rotations.length = h.rotations.length) ∧
      ∃ pts : List (α × α × α), ProjectTo3DRun h = some (pts, h) ∧
        ProjectTo3D h = some pts := by
  constructor
  · refine ⟨_, Rotate_eq cosF sinF h hv t, rfl, rfl, ?_, ?_, ?_⟩
    · simp only [List.length_map]
    · intro i p q hp hq
      simp only [List.getElem?_map, hp, Option.map_some'] at hq
      rw [← Option.some.inj hq]
      exact length_rotAll _ _ _ _ _ _ _
    · simp only [length_setAngles]
  · refine ⟨_, ?_, ProjectTo3D_eq h hv⟩
    unfold ProjectTo3DRun
    rw [projectRun_eq, projectVertices_eq h.n hv.1 h.vertices hv.2.2.1]
    rfl

theorem Rotate_frame_witness :
    (∃ h1 : Hypercube ℝ, Rotate Real.cos Real.sin (sampleCube ℝ) 1 = some h1 ∧
        h1.n = (sampleCube ℝ).n ∧
        h1.edges = (sampleCube ℝ).edges ∧
        h1.vertices.length = (sampleCube ℝ).vertices.length ∧
        (∀ (i : Nat) (p q : PointND ℝ), (sampleCube ℝ).vertices[i]? = some p →
          h1.vertices[i]? = some q → q.coords.length = p.coords.length) ∧
        h1.rotations.length = (sampleCube ℝ).rotations.length) ∧
      ∃ pts : List (ℝ × ℝ × ℝ), ProjectTo3DRun (sampleCube ℝ) = some (pts, sampleCube ℝ) ∧
        ProjectTo3D (sampleCube ℝ) = some pts :=
  Rotate_frame Real.cos Real.sin (sampleCube ℝ) (valid_sampleCube ℝ) 1

/-! ## Safety of `Rotate` and `ProjectTo3D` -/

theorem foldlM_none_of_step {σ β : Type} (f : σ → β → Option σ) (l r : List β) (a : β)
    (b s : σ) (h : l.foldlM f b = some s) (hf : f s a = none) :
    (l ++ a :: r).foldlM f b = none := by
  rw [List.foldlM_append, h]
  show (a :: r).foldlM f s = none
  rw [List.foldlM_cons, hf]
  rfl

/-- When the rotation table is shorter than the number of planes, `Rotate` runs
out of the table: the write `h.rotations[angleIdx]` is out of range. -/
theorem Rotate_none_of_short_table {α : Type} [Field α] (cosF sinF : α → α)
    (h : Hypercube α) (h1 : 1 ≤ h.n) (h63 : h.n < 2 ^ 63)
    (hc : ∀ p ∈ h.vertices, p.coords.length = h.n.toNat)
    (hr : h.rotations.length < h.n.toNat * (h.n.toNat - 1) / 2) (t : α) :
    Rotate cosF sinF h t = none := by
  rw [Rotate_eq_pass cosF sinF h h1 h63 t]
  have hlt : h.rotations.length < (planes h.n.toNat).length := by
    rw [length_planes]
    exact hr
  have hlen : ((planes h.n.toNat).take h.rotations.length).length = h.rotations.length := by
    rw [List.length_take]
    omega
  have hrun := foldlM_rotatePlane cosF sinF t h.n h.n.toNat
    ((planes h.n.toNat).take h.rotations.length)
    (fun p hp => by
      have := mem_planes _ p (List.mem_of_mem_take hp)
      exact ⟨by omega, this.2⟩)
    ⟨0, h.rotations, h.vertices⟩ (by simp only [hlen]; omega) hc
  have hstep : rotatePlane cosF sinF t h.n
      ((planes h.n.toNat)[h.rotations.length]).1 ((planes h.n.toNat)[h.rotations.length]).2
      ⟨0 + ((planes h.n.toNat).take h.rotations.length).length,
        setAngles t h.n 0 ((planes h.n.toNat).take h.rotations.length).length h.rotations,
        h.vertices.map (fun q => ⟨rotAll cosF sinF t h.n
          ((planes h.n.toNat).take h.rotations.length) 0 q.coords⟩)⟩ = none := by
    unfold rotatePlane
    simp only
    rw [if_neg (by rw [length_setAngles, hlen]; omega)]
  have hsplit := foldlM_none_of_step
    (fun s p => rotatePlane cosF sinF t h.n p.1 p.2 s)
    ((planes h.n.toNat).take h.rotations.length)
    ((planes h.n.toNat).drop (h.rotations.length + 1))
    ((planes h.n.toNat)[h.rotations.length]) _ _ hrun hstep
  rw [← List.drop_eq_getElem_cons hlt, List.take_append_drop] at hsplit
  rw [hsplit]
  rfl

theorem NewHypercube_wrapped_table {α : Type} [Field α] :
    (NewHypercube 4294967297 : Option (Hypercube α)) =
      some ⟨4294967297, [], [], List.replicate 2147483648 0⟩ := by
  have hshl : shl 1 4294967297 = 0 := shl_of_ge_64 _ _ (by decide)
  have hrot : Int.tdiv (wrap64 (4294967297 * (4294967297 - 1))) 2 = 2147483648 := by decide
  have hn : ¬ ((4294967297 : Int) < 1) := by decide
  unfold NewHypercube
  simp only [hn, if_false, hshl, hrot]
  rw [if_neg (by decide), if_neg (by decide)]
  rfl

/-- The rotation table of a returned cube, for any dimension count `d ≥ 1`. -/
theorem NewHypercube_some_table {α : Type} [Zero α] [One α] [Neg α] (d : Int) (h1 : 1 ≤ d)
    (h : Hypercube α) (hh : NewHypercube d = some h) :
    0 ≤ Int.tdiv (wrap64 (d * (d - 1))) 2 ∧
      h.rotations.length = (Int.tdiv (wrap64 (d * (d - 1))) 2).toNat := by
  have hn : ¬ (d < 1) := by omega
  unfold NewHypercube at hh
  simp only [hn, if_false] at hh
  by_cases hv : shl 1 d < 0
  · rw [if_pos hv] at hh
    exact absurd hh (by simp)
  · rw [if_neg hv] at hh
    by_cases hr : Int.tdiv (wrap64 (d * (d - 1))) 2 < 0
    · rw [if_pos hr] at hh
      exact absurd hh (by simp)
    · rw [if_neg hr] at hh
      have := Option.some.inj hh
      subst this
      exact ⟨by omega, List.length_replicate _ _⟩

theorem tdiv_two_neg (x : Int) (hx : x ≤ -2) : Int.tdiv x 2 < 0 := by
  have e : x = -(-x) := by omega
  rw [e, Int.neg_tdiv, Int.tdiv_eq_ediv (by omega) (by omega)]
  omega

/-- For a dimension count up to `2^32` the table length `d (d - 1) / 2` computed
in 64 bits is either the exact value or negative. -/
theorem table_length_exact (m : Nat) (hm : m ≤ 4294967296)
    (h0 : 0 ≤ Int.tdiv (wrap64 ((m : Int) * ((m : Int) - 1))) 2) :
    (Int.tdiv (wrap64 ((m : Int) * ((m : Int) - 1))) 2).toNat = m * (m - 1) / 2 := by
  have hc : (m : Int) * ((m : Int) - 1) = ((m * (m - 1) : Nat) : Int) := by
    rcases m with _ | k
    · simp
    · push_cast; simp
  have hb : m * (m - 1) ≤ 4294967296 * 4294967295 := Nat.mul_le_mul hm (by omega)
  rw [hc] at h0 ⊢
  by_cases hs : m * (m - 1) < 2 ^ 63
  · rw [wrap64_of_range _ (by omega) (by omega)]
    rfl
  · exfalso
    have hw : wrap64 ((m * (m - 1) : Nat) : Int) = ((m * (m - 1) : Nat) : Int) - 2 ^ 64 := by
      unfold wrap64
      omega
    rw [hw] at h0
    have := tdiv_two_neg (((m * (m - 1) : Nat) : Int) - 2 ^ 64) (by omega)
    omega

/-- Every cube `NewHypercube` returns for a dimension count up to `2^32` is valid. -/
theorem valid_of_NewHypercube {α : Type} [Zero α] [One α] [Neg α] (d : Int)
    (hd : d ≤ 4294967296) (h : Hypercube α) (hh : NewHypercube d = some h) : Valid h := by
  have key : ∀ e : Int, 1 ≤ e → e ≤ 4294967296 → NewHypercube e = some h → Valid h := by
    intro e he1 he2 hhe
    obtain ⟨hn1, hf⟩ := NewHypercube_fresh e h hhe
    obtain ⟨-, hn, -, -⟩ := NewHypercube_some e he1 h hhe
    obtain ⟨ht0, htl⟩ := NewHypercube_some_table e he1 h hhe
    obtain ⟨m, rfl⟩ := Int.eq_ofNat_of_zero_le (by omega : 0 ≤ e)
    refine ⟨hn1, by omega, fun p hp => (hf p hp).1, ?_⟩
    rw [htl, table_length_exact m (by omega) ht0, hn, Int.toNat_ofNat]
  by_cases h1 : d < 1
  · rw [NewHypercube_of_lt_one d h1] at hh
    exact key 1 (le_refl 1) (by decide) hh
  · exact key d (by omega) hd hh

/-- Any sequence of `Rotate` calls on a valid cube returns a valid cube. -/
theorem valid_rotate_seq {α : Type} [Field α] (cosF sinF : α → α) (ts : List α)
    (h : Hypercube α) (hv : Valid h) :
    ∃ h1 : Hypercube α, ts.foldlM (fun g t => Rotate cosF sinF g t) h = some h1 ∧
      Valid h1 := by
  induction ts generalizing h with
  | nil => exact ⟨h, rfl, hv⟩
  | cons t ts ih =>
    obtain ⟨h1, hr, hv1, -, -⟩ := Rotate_vertices cosF sinF h hv t
    obtain ⟨h2, hr2, hv2⟩ := ih h1 hv1
    refine ⟨h2, ?_, hv2⟩
    rw [List.foldlM_cons, hr]
    exact hr2

/-- Safety on valid cubes: `Rotate` and `ProjectTo3D` cannot fail on a valid cube: for every
cube with `n ≥ 1`, every vertex holding exactly `n` coordinates and a rotation
table of length `n(n-1)/2`, both calls return, so every slice access is in bounds
(whatever values `cos` and `sin` take); the guard `h.n > 0` holds; the loops of
`Rotate` are one pass over `planes n`, before the write of plane `k < n(n-1)/2`
the counter `angleIdx` is `k`, strictly below the table length `n(n-1)/2`, and
when the loops finish it is `n(n-1)/2`.  Every cube reached from a cube that
`NewHypercube` returns for a dimension count up to `2^32` by any sequence of
`Rotate` calls is valid. -/
theorem Rotate_ProjectTo3D_safe {α : Type} [Field α] (cosF sinF : α → α) :
    (∀ (h : Hypercube α) (t : α), Valid h →
      (∃ h1 : Hypercube α, Rotate cosF sinF h t = some h1 ∧ Valid h1) ∧
      (∃ pts : List (α × α × α), ProjectTo3D h = some pts) ∧
      h.n > 0 ∧
      Rotate cosF sinF h t =
        ((planes h.n.toNat).foldlM (fun s p => rotatePlane cosF sinF t h.n p.1 p.2 s)
          ⟨0, h.rotations, h.vertices⟩).map
          (fun s => { h with rotations := s.rotations, vertices := s.vertices }) ∧
      (∀ k : Nat, k < h.n.toNat * (h.n.toNat - 1) / 2 →
        ∃ s : RotState α,
          ((planes h.n.toNat).take k).foldlM
            (fun s p => rotatePlane cosF sinF t h.n p.1 p.2 s)
            ⟨0, h.rotations, h.vertices⟩ = some s ∧
          s.angleIdx = k ∧ s.angleIdx < s.rotations.length ∧
          s.rotations.length = h.n.toNat * (h.n.toNat - 1) / 2) ∧
      ∃ s : RotState α,
        (planes h.n.toNat).foldlM (fun s p => rotatePlane cosF sinF t h.n p.1 p.2 s)
          ⟨0, h.rotations, h.vertices⟩ = some s ∧
        s.angleIdx = h.n.toNat * (h.n.toNat - 1) / 2) ∧
    ∀ (d : Int) (ts : List α), d ≤ 4294967296 →
      (∀ h0 : Hypercube α, NewHypercube d = some h0 →
        ∃ h : Hypercube α, ts.foldlM (fun g t => Rotate cosF sinF g t) h0 = some h ∧
          Valid h) ∧
      (1 ≤ d → d ≤ 62 → ∃ h0 : Hypercube α, NewHypercube d = some h0) := by
  constructor
  · intro h t hv
    have hall : ∀ p ∈ planes h.n.toNat, p.1 < h.n.toNat ∧ p.2 < h.n.toNat := by
      intro p hp
      have := mem_planes _ p hp
      exact ⟨by omega, this.2⟩
    refine ⟨⟨_, Rotate_eq cosF sinF h hv t,
        valid_Rotate cosF sinF h _ hv t (Rotate_eq cosF sinF h hv t)⟩,
      ⟨_, ProjectTo3D_eq h hv⟩, by have := hv.1; omega,
      Rotate_eq_pass cosF sinF h hv.1 hv.2.1 t, ?_, ?_⟩
    · intro k hk
      have hlen : ((planes h.n.toNat).take k).length = k := by
        rw [List.length_take, length_planes]
        omega
      have hrun := foldlM_rotatePlane cosF sinF t h.n h.n.toNat
        ((planes h.n.toNat).take k)
        (fun p hp => hall p (List.mem_of_mem_take hp))
        ⟨0, h.rotations, h.vertices⟩
        (by simp only [hlen, hv.2.2.2]; omega) hv.2.2.1
      rw [hlen] at hrun
      refine ⟨_, hrun, by simp, ?_, ?_⟩
      · simp only [length_setAngles, hv.2.2.2]
        omega
      · simp only [length_setAngles, hv.2.2.2]
    · have hrun := foldlM_rotatePlane cosF sinF t h.n h.n.toNat (planes h.n.toNat) hall
        ⟨0, h.rotations, h.vertices⟩
        (by simp only [length_planes, hv.2.2.2]; omega) hv.2.2.1
      rw [length_planes] at hrun
      exact ⟨_, hrun, by simp⟩
  · intro d ts hd
    constructor
    · intro h0 hh
      exact valid_rotate_seq cosF sinF ts h0 (valid_of_NewHypercube d hd h0 hh)
    · intro h1 h62
      obtain ⟨n, rfl⟩ := Int.eq_ofNat_of_zero_le (by omega : 0 ≤ d)
      exact ⟨_, NewHypercube_eq n (by omega) (by omega)⟩

theorem Rotate_ProjectTo3D_safe_witness :
    ((∃ h1 : Hypercube ℝ, Rotate Real.cos Real.sin (sampleCube ℝ) 1 = some h1 ∧ Valid h1) ∧
      (∃ pts : List (ℝ × ℝ × ℝ), ProjectTo3D (sampleCube ℝ) = some pts) ∧
      (sampleCube ℝ).n > 0) ∧
    ∃ h : Hypercube ℝ,
      [1, 2].foldlM (fun g t => Rotate Real.cos Real.sin g t) (sampleCube ℝ) = some h ∧
        Valid h :=
  ⟨⟨((Rotate_ProjectTo3D_safe Real.cos Real.sin).1 (sampleCube ℝ) 1 (valid_sampleCube ℝ)).1,
      ((Rotate_ProjectTo3D_safe Real.cos Real.sin).1 (sampleCube ℝ) 1
        (valid_sampleCube ℝ)).2.1,
      ((Rotate_ProjectTo3D_safe Real.cos Real.sin).1 (sampleCube ℝ) 1
        (valid_sampleCube ℝ)).2.2.1⟩,
    ((Rotate_ProjectTo3D_safe Real.cos Real.sin).2 3 [1, 2] (by decide)).1 (sampleCube ℝ)
      (sampleCube_eq ℝ)⟩

/-- C18 (evaluation at the failing input `NewHypercube(4294967297)` followed by
`Rotate(t)`): the cube is reachable from `NewHypercube`, and for the dimension
count `2^32 + 1` the table length `n(n-1)/2` wraps to `2^31` in 64 bits, so
`NewHypercube(4294967297)` returns a cube whose table is shorter than its number
of planes, and every `Rotate` on it fails with an index out of range. -/
theorem Rotate_fails_on_wrapped_table :
    (NewHypercube 4294967297 : Option (Hypercube ℝ)) =
        some ⟨4294967297, [], [], List.replicate 2147483648 0⟩ ∧
      ∀ t : ℝ, Rotate Real.cos Real.sin
        (⟨4294967297, [], [], List.replicate 2147483648 0⟩ : Hypercube ℝ) t = none := by
  refine ⟨NewHypercube_wrapped_table, fun t => ?_⟩
  apply Rotate_none_of_short_table
  · decide
  · decide
  · intro p hp
    exact absurd hp (List.not_mem_nil p)
  · show (List.replicate 2147483648 (0 : ℝ)).length <
      (4294967297 : Int).toNat * ((4294967297 : Int).toNat - 1) / 2
    rw [List.length_replicate]
    decide

/-! ## `Rotate` as a map on each vertex -/

theorem filter_lt_range (n i : Nat) :
    (List.range n).filter (fun j => decide (i < j)) = List.range' (i + 1) (n - (i + 1)) := by
  induction n with
  | zero =>
    rw [Nat.zero_sub]
    rfl
  | succ k ih =>
    rw [List.range_succ, List.filter_append, ih]
    by_cases hik : i < k
    · have e : k + 1 - (i + 1) = (k - (i + 1)) + 1 := by omega
      rw [e, List.range'_concat]
      simp only [List.filter_cons, hik, decide_True, if_true, List.filter_nil, Nat.one_mul]
      congr 2
      omega
    · have e1 : k - (i + 1) = 0 := by omega
      have e2 : k + 1 - (i + 1) = 0 := by omega
      rw [e1, e2]
      simp [hik]

theorem specPlanes_eq (n : Nat) : specPlanes n = planes n := by
  unfold specPlanes planes
  simp only [filter_lt_range]
  rcases n with _ | k
  · rfl
  · rw [List.range_succ, List.flatMap_append, Nat.add_sub_cancel]
    simp

theorem specPlaneRotation_eq {α : Type} [Field α] (cosA sinA : α) (i j : Nat) (hij : i ≠ j)
    (l : List α) (hi : i < l.length) (hj : j < l.length) :
    specPlaneRotation cosA sinA i j l = rotList cosA sinA i j l := by
  unfold specPlaneRotation rotList
  apply List.ext_getElem?
  intro m
  by_cases hm : m < l.length
  · rw [List.getElem?_map, List.getElem?_range hm, Option.map_some']
    by_cases hmj : j = m
    · subst hmj
      rw [List.getElem?_set_self (by rw [List.length_set]; exact hj), if_neg (Ne.symm hij),
        if_pos rfl]
    · rw [List.getElem?_set_ne hmj]
      by_cases hmi : i = m
      · subst hmi
        rw [List.getElem?_set_self hi, if_pos rfl]
      · rw [List.getElem?_set_ne hmi, if_neg (Ne.symm hmi), if_neg (Ne.symm hmj),
          getElem?_eq_getD_of_lt l m 0 hm]
  · rw [List.getElem?_eq_none (by simp; omega), List.getElem?_eq_none (by simp; omega)]

theorem planeAngle_natCast {α : Type} [Field α] (t : α) (m k : Nat) :
    planeAngle t (m : Int) k = t * ((k : α) + 1) / (m : α) := by
  unfold planeAngle
  push_cast
  rfl

theorem rotAll_eq_foldl {α : Type} [Field α] (cosF sinF : α → α) (t : α) (m : Nat)
    (ps : List (Nat × Nat)) (hps : ∀ p ∈ ps, p.1 < p.2 ∧ p.2 < m) (k : Nat) (l : List α)
    (hl : l.length = m) :
    rotAll cosF sinF t (m : Int) ps k l =
      (ps.enumFrom k).foldl
        (fun l kp =>
          specPlaneRotation (cosF (t * ((kp.1 : α) + 1) / (m : α)))
            (sinF (t * ((kp.1 : α) + 1) / (m : α))) kp.2.1 kp.2.2 l)
        l := by
  induction ps generalizing k l with
  | nil => rfl
  | cons p ps ih =>
    have hp := hps p (List.mem_cons_self p ps)
    rw [rotAll, List.enumFrom_cons, List.foldl_cons,
      ih (fun q hq => hps q (List.mem_cons_of_mem p hq)) _ _
        (by rw [length_rotList]; exact hl),
      planeAngle_natCast,
      specPlaneRotation_eq _ _ p.1 p.2 (by omega) l (by omega) (by omega)]

/-- On a coordinate list of length `n` the plane rotations of one call of `Rotate`
are the map of the specification. -/
theorem rotAll_eq_spec {α : Type} [Field α] (cosF sinF : α → α) (t : α) (m : Nat)
    (l : List α) (hl : l.length = m) :
    rotAll cosF sinF t (m : Int) (planes m) 0 l = specRotateVertex cosF sinF t m l := by
  unfold specRotateVertex
  rw [specPlanes_eq, List.enum, rotAll_eq_foldl cosF sinF t m (planes m) (mem_planes m) 0 l hl]

/-! ### The map on a vertex is linear -/

theorem getD_zipWith_lin {α : Type} [Field α] (a b : α) (u v : List α)
    (hl : u.length = v.length) (k : Nat) :
    (List.zipWith (fun x y => a * x + b * y) u v).getD k 0 =
      a * u.getD k 0 + b * v.getD k 0 := by
  induction u generalizing v k with
  | nil =>
    cases v with
    | nil => simp
    | cons y ys => simp at hl
  | cons x xs ih =>
    cases v with
    | nil => simp at hl
    | cons y ys =>
      cases k with
      | zero => simp
      | succ k =>
        simp only [List.length_cons, Nat.add_right_cancel_iff] at hl
        simp only [List.zipWith_cons_cons, List.getD_cons_succ]
        exact ih ys hl k

theorem length_specPlaneRotation {α : Type} [Field α] (cosA sinA : α) (i j : Nat)
    (l : List α) : (specPlaneRotation cosA sinA i j l).length = l.length := by
  simp [specPlaneRotation]

theorem specPlaneRotation_lin {α : Type} [Field α] (cosA sinA : α) (i j : Nat) (a b : α)
    (u v : List α) (hl : u.length = v.length) :
    specPlaneRotation cosA sinA i j (List.zipWith (fun x y => a * x + b * y) u v) =
      List.zipWith (fun x y => a * x + b * y) (specPlaneRotation cosA sinA i j u)
        (specPlaneRotation cosA sinA i j v) := by
  unfold specPlaneRotation
  rw [List.length_zipWith, ← hl, Nat.min_self, List.zipWith_map, List.zipWith_same]
  apply List.map_congr_left
  intro m _
  simp only [getD_zipWith_lin a b u v hl]
  by_cases hmi : m = i
  · simp only [if_pos hmi]
    ring
  · by_cases hmj : m = j
    · simp only [if_neg hmi, if_pos hmj]
      ring
    · simp only [if_neg hmi, if_neg hmj]

theorem foldl_specPlaneRotation_lin {α : Type} [Field α] (cosF sinF : α → α) (t : α)
    (n : Nat) (a b : α) (ks : List (Nat × Nat × Nat)) (u v : List α)
    (hl : u.length = v.length) :
    ks.foldl
        (fun l kp =>
          specPlaneRotation (cosF (t * ((kp.1 : α) + 1) / (n : α)))
            (sinF (t * ((kp.1 : α) + 1) / (n : α))) kp.2.1 kp.2.2 l)
        (List.zipWith (fun x y => a * x + b * y) u v) =
      List.zipWith (fun x y => a * x + b * y)
        (ks.foldl
          (fun l kp =>
            specPlaneRotation (cosF (t * ((kp.1 : α) + 1) / (n : α)))
              (sinF (t * ((kp.1 : α) + 1) / (n : α))) kp.2.1 kp.2.2 l)
          u)
        (ks.foldl
          (fun l kp =>
            specPlaneRotation (cosF (t * ((kp.1 : α) + 1) / (n : α)))
              (sinF (t * ((kp.1 : α) + 1) / (n : α))) kp.2.1 kp.2.2 l)
          v) := by
  induction ks generalizing u v with
  | nil => rfl
  | cons kp ks ih =>
    rw [List.foldl_cons, List.foldl_cons, List.foldl_cons,
      specPlaneRotation_lin _ _ _ _ a b u v hl,
      ih _ _ (by rw [length_specPlaneRotation, length_specPlaneRotation]; exact hl)]

/-- The map of the specification is linear on coordinate lists of equal length. -/
theorem specRotateVertex_lin {α : Type} [Field α] (cosF sinF : α → α) (t : α) (n : Nat)
    (a b : α) (u v : List α) (hl : u.length = v.length) :
    specRotateVertex cosF sinF t n (List.zipWith (fun x y => a * x + b * y) u v) =
      List.zipWith (fun x y => a * x + b * y) (specRotateVertex cosF sinF t n u)
        (specRotateVertex cosF sinF t n v) :=
  foldl_specPlaneRotation_lin cosF sinF t n a b _ u v hl

/-- C19: the plane-outer, vertex-inner loops of `Rotate` equal a map on each vertex:
on every valid cube and for every `t`, `Rotate(t)` returns, and the coordinates of
each vertex after the call are the result of applying, to the prior coordinates of
that vertex alone, the sequential composition in row-major plane order
`k = 0, 1, ...` of the 2D rotations
`(c_i, c_j) -> (c_i cos a_k - c_j sin a_k, c_i sin a_k + c_j cos a_k)` with
`a_k = t (k + 1) / n`; the same map serves every vertex, and it is linear. -/
theorem Rotate_refines_vertex_map {α : Type} [Field α] (cosF sinF : α → α)
    (h : Hypercube α) (hv : Valid h) (t : α) :
    (∃ h1 : Hypercube α, Rotate cosF sinF h t = some h1 ∧
        h1.vertices =
          h.vertices.map (fun p => ⟨specRotateVertex cosF sinF t h.n.toNat p.coords⟩)) ∧
      ∀ (a b : α) (u v : List α), u.length = v.length →
        specRotateVertex cosF sinF t h.n.toNat
            (List.zipWith (fun x y => a * x + b * y) u v) =
          List.zipWith (fun x y => a * x + b * y)
            (specRotateVertex cosF sinF t h.n.toNat u)
            (specRotateVertex cosF sinF t h.n.toNat v) := by
  refine ⟨⟨_, Rotate_eq cosF sinF h hv t, ?_⟩,
    fun a b u v hl => specRotateVertex_lin cosF sinF t h.n.toNat a b u v hl⟩
  apply List.map_congr_left
  intro p hp
  have e := rotAll_eq_spec cosF sinF t h.n.toNat p.coords (hv.2.2.1 p hp)
  rw [Int.toNat_of_nonneg (by have := hv.1; omega)] at e
  rw [e]

theorem Rotate_refines_vertex_map_witness :
    ∃ h1 : Hypercube ℝ, Rotate Real.cos Real.sin (sampleCube ℝ) 1 = some h1 ∧
      h1.vertices =
        (sampleCube ℝ).vertices.map
          (fun p => ⟨specRotateVertex Real.cos Real.sin 1 (sampleCube ℝ).n.toNat p.coords⟩) :=
  (Rotate_refines_vertex_map Real.cos Real.sin (sampleCube ℝ) (valid_sampleCube ℝ) 1).1

/-! ## Rotation is additive in dimensions 1 and 2 -/

theorem planes_one : planes 1 = [] := by decide

theorem planes_two : planes 2 = [(0, 1)] := by decide

theorem rotAll_two (t x y : ℝ) :
    rotAll Real.cos Real.sin t 2 (planes 2) 0 [x, y] =
      [x * Real.cos (t / 2) - y * Real.sin (t / 2),
        x * Real.sin (t / 2) + y * Real.cos (t / 2)] := by
  have a0 : planeAngle t 2 0 = t / 2 := by
    rw [planeAngle_real]; push_cast; ring
  rw [planes_two]
  show rotList (Real.cos (planeAngle t 2 0)) (Real.sin (planeAngle t 2 0)) 0 1 [x, y] = _
  rw [a0]
  rfl

theorem rotAll_two_add (t1 t2 : ℝ) (l : List ℝ) (hl : l.length = 2) :
    rotAll Real.cos Real.sin t2 2 (planes 2) 0
        (rotAll Real.cos Real.sin t1 2 (planes 2) 0 l) =
      rotAll Real.cos Real.sin (t1 + t2) 2 (planes 2) 0 l := by
  obtain ⟨x, y, rfl⟩ := List.length_eq_two.1 hl
  rw [rotAll_two, rotAll_two, rotAll_two, show (t1 + t2) / 2 = t1 / 2 + t2 / 2 by ring,
    Real.cos_add, Real.sin_add]
  congr 1
  · ring
  · congr 1
    ring

/-- C20: in dimensions 1 and 2 rotation is additive on vertex coordinates: for
every valid cube of dimension 1 or 2 and all reals `t1`, `t2`, the three calls
return and the vertex coordinates after `Rotate(t1)` followed by `Rotate(t2)` equal
those after the single call `Rotate(t1 + t2)`. -/
theorem Rotate_additive_low_dim (h : Hypercube ℝ) (hv : Valid h) (hn : h.n = 1 ∨ h.n = 2)
    (t1 t2 : ℝ) :
    ∃ h1 h2 h3 : Hypercube ℝ, Rotate Real.cos Real.sin h t1 = some h1 ∧
      Rotate Real.cos Real.sin h1 t2 = some h2 ∧
      Rotate Real.cos Real.sin h (t1 + t2) = some h3 ∧ h2.vertices = h3.vertices := by
  obtain ⟨h1, r1, hv1, hn1, e1⟩ := Rotate_vertices Real.cos Real.sin h hv t1
  obtain ⟨h2, r2, -, -, e2⟩ := Rotate_vertices Real.cos Real.sin h1 hv1 t2
  obtain ⟨h3, r3, -, -, e3⟩ := Rotate_vertices Real.cos Real.sin h hv (t1 + t2)
  refine ⟨h1, h2, h3, r1, r2, r3, ?_⟩
  rw [e2, e3, hn1, e1, List.map_map]
  apply List.map_congr_left
  intro p hp
  have hlen := hv.2.2.1 p hp
  rcases hn with hn | hn
  · rw [hn]
    show (⟨rotAll Real.cos Real.sin t2 1 (planes 1) 0
      (rotAll Real.cos Real.sin t1 1 (planes 1) 0 p.coords)⟩ : PointND ℝ) = _
    rw [planes_one]
    rfl
  · rw [hn] at hlen ⊢
    show (⟨rotAll Real.cos Real.sin t2 2 (planes 2) 0
      (rotAll Real.cos Real.sin t1 2 (planes 2) 0 p.coords)⟩ : PointND ℝ) = _
    rw [rotAll_two_add t1 t2 p.coords hlen]
    rfl

theorem Rotate_additive_low_dim_witness :
    ∃ h1 h2 h3 : Hypercube ℝ, Rotate Real.cos Real.sin (sampleSquare ℝ) 1 = some h1 ∧
      Rotate Real.cos Real.sin h1 2 = some h2 ∧
      Rotate Real.cos Real.sin (sampleSquare ℝ) (1 + 2) = some h3 ∧
      h2.vertices = h3.vertices :=
  Rotate_additive_low_dim (sampleSquare ℝ) (valid_sampleSquare ℝ) (Or.inr rfl) 1 2

/-! ## Finiteness of the projection under the norm bound -/

theorem sq_le_sum_sq (l : List ℝ) (x : ℝ) (hx : x ∈ l) :
    x * x ≤ (l.map (fun y => y * y)).sum := by
  induction l with
  | nil => simp at hx
  | cons a as ih =>
    have hnn : 0 ≤ (as.map (fun y => y * y)).sum := by
      apply List.sum_nonneg
      intro y hy
      rw [List.mem_map] at hy
      obtain ⟨z, -, rfl⟩ := hy
      exact mul_self_nonneg z
    rw [List.map_cons, List.sum_cons]
    rcases List.mem_cons.1 hx with rfl | hmem
    · linarith
    · have := ih hmem
      nlinarith [mul_self_nonneg a]

theorem normSq_nonneg (p : PointND ℝ) : 0 ≤ normSq p := by
  unfold normSq
  apply List.sum_nonneg
  intro y hy
  rw [List.mem_map] at hy
  obtain ⟨z, -, rfl⟩ := hy
  exact mul_self_nonneg z

theorem normSq_of_sqrt_eq (p : PointND ℝ) (n : Int) (h1 : 1 ≤ n)
    (hs : Real.sqrt (normSq p) = Real.sqrt (n : ℝ)) : normSq p = (n : ℝ) := by
  have hn : (0 : ℝ) ≤ (n : ℝ) := by exact_mod_cast (by omega : (0 : Int) ≤ n)
  exact (Real.sqrt_inj (normSq_nonneg p) hn).1 hs

theorem projectPointFinite_eq {α : Type} [Field α] [DecidableEq α] (n : Int)
    (v : PointND α) (h1 : 1 ≤ n) (hl : v.coords.length = n.toNat) :
    projectPointFinite n v =
      some (if v.coords.getD (n - 1).toNat 0 + 2 = 0 then none
        else some (projFormula n v.coords)) := by
  have hw : (n - 1).toNat < v.coords.length := by omega
  unfold projectPointFinite
  rw [if_pos (by omega), List.getElem?_eq_getElem hw, projectPoint_eq n v h1 hl,
    List.getD_eq_getElem _ _ hw]
  by_cases hd : v.coords[(n - 1).toNat] + 2 = 0
  · simp only [if_pos hd, Option.map_some']
  · simp only [if_neg hd, Option.map_some']

theorem projectVerticesFinite_eq {α : Type} [Field α] [DecidableEq α] (n : Int)
    (h1 : 1 ≤ n) (vs : List (PointND α)) (hv : ∀ p ∈ vs, p.coords.length = n.toNat) :
    projectVerticesFinite n vs =
      some (vs.map (fun p => if p.coords.getD (n - 1).toNat 0 + 2 = 0 then none
        else some (projFormula n p.coords))) := by
  induction vs with
  | nil => rfl
  | cons p ps ih =>
    rw [projectVerticesFinite, projectPointFinite_eq n p h1 (hv p (List.mem_cons_self p ps))]
    simp only
    rw [ih (fun q hq => hv q (List.mem_cons_of_mem p hq))]
    rfl

/-- On a valid cube the projection with the division observed returns; the entry
of a vertex is `none` exactly when its divisor `c[n-1] + 2` is zero. -/
theorem ProjectTo3DFinite_eq {α : Type} [Field α] [DecidableEq α] (h : Hypercube α)
    (hv : Valid h) :
    ProjectTo3DFinite h =
      some (h.vertices.map (fun p => if p.coords.getD (h.n - 1).toNat 0 + 2 = 0 then none
        else some (projFormula h.n p.coords))) :=
  projectVerticesFinite_eq h.n hv.1 h.vertices hv.2.2.1

/-- C14 (amended): `ProjectTo3D` remains finite for rotated coordinates in
dimensions up to 3: for every valid cube of dimension `n` with `1 ≤ n ≤ 3` in which
every vertex has Euclidean norm `sqrt(n)`, every coordinate `c` of every vertex
satisfies `|c| ≤ sqrt(n)`, the divisor `c[n-1] + 2` is positive, hence non-zero,
for every vertex, and `ProjectTo3D` returns a list all of whose points are
finite. -/
theorem ProjectTo3D_finite_low_dim (h : Hypercube ℝ) (hv : Valid h) (h3 : h.n ≤ 3)
    (hnorm : ∀ p ∈ h.vertices, Real.sqrt (normSq p) = Real.sqrt (h.n : ℝ)) :
    ∃ pts : List (ℝ × ℝ × ℝ), ProjectTo3D h = some pts ∧
      ProjectTo3DFinite h = some (pts.map some) ∧
      ∀ p ∈ h.vertices,
        (∀ x ∈ p.coords, |x| ≤ Real.sqrt (h.n : ℝ)) ∧
        ∃ w : ℝ, p.coords[(h.n - 1).toNat]? = some w ∧ 0 < w + 2 ∧ w + 2 ≠ 0 := by
  have hpos : ∀ p ∈ h.vertices, 0 < p.coords.getD (h.n - 1).toNat 0 + 2 := by
    intro p hp
    have hN := normSq_of_sqrt_eq p h.n hv.1 (hnorm p hp)
    have hlen := hv.2.2.1 p hp
    have h1 := hv.1
    have hget := getElem?_eq_getD_of_lt p.coords (h.n - 1).toNat 0 (by omega)
    have hsq := sq_le_sum_sq p.coords _ (List.getElem?_mem hget)
    have hle : (h.n : ℝ) ≤ 3 := by exact_mod_cast h3
    have hb : p.coords.getD (h.n - 1).toNat 0 * p.coords.getD (h.n - 1).toNat 0 ≤ 3 := by
      unfold normSq at hN
      linarith
    nlinarith
  refine ⟨_, ProjectTo3D_eq h hv, ?_, ?_⟩
  · rw [ProjectTo3DFinite_eq h hv, List.map_map]
    congr 1
    apply List.map_congr_left
    intro p hp
    rw [if_neg (ne_of_gt (hpos p hp))]
    rfl
  · intro p hp
    have hN := normSq_of_sqrt_eq p h.n hv.1 (hnorm p hp)
    have hlen := hv.2.2.1 p hp
    have h1 := hv.1
    constructor
    · intro x hx
      apply Real.abs_le_sqrt
      rw [← hN, sq]
      exact sq_le_sum_sq p.coords x hx
    · exact ⟨_, getElem?_eq_getD_of_lt p.coords (h.n - 1).toNat 0 (by omega), hpos p hp,
        ne_of_gt (hpos p hp)⟩

theorem normSq_sampleCube (p : PointND ℝ) (hp : p ∈ (sampleCube ℝ).vertices) :
    Real.sqrt (normSq p) = Real.sqrt (((sampleCube ℝ).n : Int) : ℝ) := by
  have e : normSq p = 3 := by
    simp only [sampleCube, List.mem_cons, List.mem_singleton, List.not_mem_nil, or_false] at hp
    rcases hp with rfl | rfl | rfl | rfl | rfl | rfl | rfl | rfl <;> norm_num [normSq]
  rw [e]
  norm_num [sampleCube]

theorem ProjectTo3D_finite_low_dim_witness :
    Valid (sampleCube ℝ) ∧ (sampleCube ℝ).n ≤ 3 ∧
      ∃ pts : List (ℝ × ℝ × ℝ), ProjectTo3D (sampleCube ℝ) = some pts ∧
        ProjectTo3DFinite (sampleCube ℝ) = some (pts.map some) ∧
        ∀ p ∈ (sampleCube ℝ).vertices,
          (∀ x ∈ p.coords, |x| ≤ Real.sqrt ((sampleCube ℝ).n : ℝ)) ∧
          ∃ w : ℝ, p.coords[((sampleCube ℝ).n - 1).toNat]? = some w ∧ 0 < w + 2 ∧
            w + 2 ≠ 0 :=
  ⟨valid_sampleCube ℝ, by decide,
    ProjectTo3D_finite_low_dim (sampleCube ℝ) (valid_sampleCube ℝ) (by decide)
      normSq_sampleCube⟩

/-! ## A zero divisor reached by rotation in dimension 4 -/

theorem cos_three_pi_div_four : Real.cos (3 * Real.pi / 4) = -(√2 / 2) := by
  rw [show 3 * Real.pi / 4 = Real.pi - Real.pi / 4 by ring, Real.cos_pi_sub,
    Real.cos_pi_div_four]

theorem sin_three_pi_div_four : Real.sin (3 * Real.pi / 4) = √2 / 2 := by
  rw [show 3 * Real.pi / 4 = Real.pi - Real.pi / 4 by ring, Real.sin_pi_sub,
    Real.sin_pi_div_four]

theorem cos_five_pi_div_four : Real.cos (5 * Real.pi / 4) = -(√2 / 2) := by
  rw [show 5 * Real.pi / 4 = Real.pi / 4 + Real.pi by ring, Real.cos_add_pi,
    Real.cos_pi_div_four]

theorem sin_five_pi_div_four : Real.sin (5 * Real.pi / 4) = -(√2 / 2) := by
  rw [show 5 * Real.pi / 4 = Real.pi / 4 + Real.pi by ring, Real.sin_add_pi,
    Real.sin_pi_div_four]

theorem cos_nine_pi_div_four : Real.cos (9 * Real.pi / 4) = √2 / 2 := by
  rw [show 9 * Real.pi / 4 = Real.pi / 4 + 2 * Real.pi by ring, Real.cos_add_two_pi,
    Real.cos_pi_div_four]

theorem sin_nine_pi_div_four : Real.sin (9 * Real.pi / 4) = √2 / 2 := by
  rw [show 9 * Real.pi / 4 = Real.pi / 4 + 2 * Real.pi by ring, Real.sin_add_two_pi,
    Real.sin_pi_div_four]

theorem cos_fifteen_pi_div_four : Real.cos (15 * Real.pi / 4) = √2 / 2 := by
  rw [show 15 * Real.pi / 4 = (2 * Real.pi - Real.pi / 4) + 2 * Real.pi by ring,
    Real.cos_add_two_pi, Real.cos_two_pi_sub, Real.cos_pi_div_four]

theorem sin_fifteen_pi_div_four : Real.sin (15 * Real.pi / 4) = -(√2 / 2) := by
  rw [show 15 * Real.pi / 4 = (2 * Real.pi - Real.pi / 4) + 2 * Real.pi by ring,
    Real.sin_add_two_pi, Real.sin_two_pi_sub, Real.sin_pi_div_four]

theorem cos_nine_pi_div_two : Real.cos (9 * Real.pi / 2) = 0 := by
  rw [show 9 * Real.pi / 2 = (Real.pi / 2 + 2 * Real.pi) + 2 * Real.pi by ring,
    Real.cos_add_two_pi, Real.cos_add_two_pi, Real.cos_pi_div_two]

theorem sin_nine_pi_div_two : Real.sin (9 * Real.pi / 2) = 1 := by
  rw [show 9 * Real.pi / 2 = (Real.pi / 2 + 2 * Real.pi) + 2 * Real.pi by ring,
    Real.sin_add_two_pi, Real.sin_add_two_pi, Real.sin_pi_div_two]

theorem sqrt_two_mul_self : √2 * √2 = (2 : ℝ) := Real.mul_self_sqrt (by norm_num)

theorem planes_four : planes 4 = [(0, 1), (0, 2), (0, 3), (1, 2), (1, 3), (2, 3)] := by decide

/-- The six plane rotations of dimension 4 on a coordinate list of length 4, with
the cosine and sine of plane `k` written `ck`, `sk`. -/
theorem rotAll_four {α : Type} [Field α] (cosF sinF : α → α) (t x y z w : α) :
    rotAll cosF sinF t 4 [(0, 1), (0, 2), (0, 3), (1, 2), (1, 3), (2, 3)] 0 [x, y, z, w] =
      rotList (cosF (planeAngle t 4 5)) (sinF (planeAngle t 4 5)) 2 3
        (rotList (cosF (planeAngle t 4 4)) (sinF (planeAngle t 4 4)) 1 3
          (rotList (cosF (planeAngle t 4 3)) (sinF (planeAngle t 4 3)) 1 2
            (rotList (cosF (planeAngle t 4 2)) (sinF (planeAngle t 4 2)) 0 3
              (rotList (cosF (planeAngle t 4 1)) (sinF (planeAngle t 4 1)) 0 2
                (rotList (cosF (planeAngle t 4 0)) (sinF (planeAngle t 4 0)) 0 1
                  [x, y, z, w]))))) := rfl

theorem rotList_four_01 {α : Type} [Field α] (c s x y z w : α) :
    rotList c s 0 1 [x, y, z, w] = [x * c - y * s, x * s + y * c, z, w] := rfl

theorem rotList_four_02 {α : Type} [Field α] (c s x y z w : α) :
    rotList c s 0 2 [x, y, z, w] = [x * c - z * s, y, x * s + z * c, w] := rfl

theorem rotList_four_03 {α : Type} [Field α] (c s x y z w : α) :
    rotList c s 0 3 [x, y, z, w] = [x * c - w * s, y, z, x * s + w * c] := rfl

theorem rotList_four_12 {α : Type} [Field α] (c s x y z w : α) :
    rotList c s 1 2 [x, y, z, w] = [x, y * c - z * s, y * s + z * c, w] := rfl

theorem rotList_four_13 {α : Type} [Field α] (c s x y z w : α) :
    rotList c s 1 3 [x, y, z, w] = [x, y * c - w * s, z, y * s + w * c] := rfl

theorem rotList_four_23 {α : Type} [Field α] (c s x y z w : α) :
    rotList c s 2 3 [x, y, z, w] = [x, y, z * c - w * s, z * s + w * c] := rfl

/-- `Rotate(π)` in dimension 4 on a coordinate list. -/
theorem rotAll_four_pi (x y z w : ℝ) :
    rotAll Real.cos Real.sin Real.pi 4 (planes 4) 0 [x, y, z, w] =
      [(z - w) * (√2 / 2), (x + y - z - w) / 2, (x + y + z + w) / 2, (x - y) * (√2 / 2)] := by
  have a0 : planeAngle Real.pi 4 0 = Real.pi / 4 := by
    rw [planeAngle_real]; push_cast; ring
  have a1 : planeAngle Real.pi 4 1 = Real.pi / 2 := by
    rw [planeAngle_real]; push_cast; ring
  have a2 : planeAngle Real.pi 4 2 = 3 * Real.pi / 4 := by
    rw [planeAngle_real]; push_cast; ring
  have a3 : planeAngle Real.pi 4 3 = Real.pi := by
    rw [planeAngle_real]; push_cast; ring
  have a4 : planeAngle Real.pi 4 4 = 5 * Real.pi / 4 := by
    rw [planeAngle_real]; push_cast; ring
  have a5 : planeAngle Real.pi 4 5 = 3 * Real.pi / 2 := by
    rw [planeAngle_real]; push_cast; ring
  have h2 := sqrt_two_mul_self
  rw [planes_four, rotAll_four, a0, a1, a2, a3, a4, a5, Real.cos_pi_div_four,
    Real.sin_pi_div_four, Real.cos_pi_div_two, Real.sin_pi_div_two, cos_three_pi_div_four,
    sin_three_pi_div_four, Real.cos_pi, Real.sin_pi, cos_five_pi_div_four,
    sin_five_pi_div_four, cos_three_pi_div_two, sin_three_pi_div_two, rotList_four_01,
    rotList_four_02, rotList_four_03, rotList_four_12, rotList_four_13, rotList_four_23]
  congr 1
  · ring
  congr 1
  · linear_combination ((x + y - z - w) / 4) * h2
  congr 1
  · linear_combination ((x + y + z + w) / 4) * h2
  congr 1
  ring

/-- `Rotate(3π)` in dimension 4 on a coordinate list. -/
theorem rotAll_four_three_pi (x y z w : ℝ) :
    rotAll Real.cos Real.sin (3 * Real.pi) 4 (planes 4) 0 [x, y, z, w] =
      [(z - w) * (√2 / 2), (-x + y + z + w) / 2, (-x + y - z - w) / 2,
        -((x + y) * (√2 / 2))] := by
  have a0 : planeAngle (3 * Real.pi) 4 0 = 3 * Real.pi / 4 := by
    rw [planeAngle_real]; push_cast; ring
  have a1 : planeAngle (3 * Real.pi) 4 1 = 3 * Real.pi / 2 := by
    rw [planeAngle_real]; push_cast; ring
  have a2 : planeAngle (3 * Real.pi) 4 2 = 9 * Real.pi / 4 := by
    rw [planeAngle_real]; push_cast; ring
  have a3 : planeAngle (3 * Real.pi) 4 3 = 3 * Real.pi := by
    rw [planeAngle_real]; push_cast; ring
  have a4 : planeAngle (3 * Real.pi) 4 4 = 15 * Real.pi / 4 := by
    rw [planeAngle_real]; push_cast; ring
  have a5 : planeAngle (3 * Real.pi) 4 5 = 9 * Real.pi / 2 := by
    rw [planeAngle_real]; push_cast; ring
  have h2 := sqrt_two_mul_self
  rw [planes_four, rotAll_four, a0, a1, a2, a3, a4, a5, cos_three_pi_div_four,
    sin_three_pi_div_four, cos_three_pi_div_two, sin_three_pi_div_two, cos_nine_pi_div_four,
    sin_nine_pi_div_four, cos_three_pi, sin_three_pi, cos_fifteen_pi_div_four,
    sin_fifteen_pi_div_four, cos_nine_pi_div_two, sin_nine_pi_div_two, rotList_four_01,
    rotList_four_02, rotList_four_03, rotList_four_12, rotList_four_13, rotList_four_23]
  congr 1
  · ring
  congr 1
  · linear_combination ((-x + y + z + w) / 4) * h2
  congr 1
  · linear_combination ((-x + y - z - w) / 4) * h2
  congr 1
  ring

/-- The calls `Rotate(π)`, `Rotate(π)`, `Rotate(3π)`, `Rotate(π)` take the
coordinates `(-1, -1, 1, -1)` of vertex 4 of `NewHypercube(4)` to `(0, 0, 0, -2)`,
through `(√2, -1, -1, 0)`, `(-√2/2, √2/2, √2/2 - 1, 1 + √2/2)` and `(-√2, √2, 0, 0)`. -/
theorem rotAll_four_trace :
    rotAll Real.cos Real.sin Real.pi 4 (planes 4) 0
        (rotAll Real.cos Real.sin (3 * Real.pi) 4 (planes 4) 0
          (rotAll Real.cos Real.sin Real.pi 4 (planes 4) 0
            (rotAll Real.cos Real.sin Real.pi 4 (planes 4) 0 [-1, -1, 1, -1]))) =
      [0, 0, 0, -2] := by
  have h2 := sqrt_two_mul_self
  have s1 : rotAll Real.cos Real.sin Real.pi 4 (planes 4) 0 [-1, -1, 1, -1] =
      [√2, -1, -1, 0] := by
    rw [rotAll_four_pi]
    congr 1
    · ring
    congr 1
    · ring
    congr 1
    · ring
    congr 1
    ring
  have s2 : rotAll Real.cos Real.sin Real.pi 4 (planes 4) 0 [√2, -1, -1, 0] =
      [-(√2 / 2), √2 / 2, √2 / 2 - 1, 1 + √2 / 2] := by
    rw [rotAll_four_pi]
    congr 1
    · ring
    congr 1
    · ring
    congr 1
    · ring
    congr 1
    linear_combination (1 / 2 : ℝ) * h2
  have s3 : rotAll Real.cos Real.sin (3 * Real.pi) 4 (planes 4) 0
      [-(√2 / 2), √2 / 2, √2 / 2 - 1, 1 + √2 / 2] = [-√2, √2, 0, 0] := by
    rw [rotAll_four_three_pi]
    congr 1
    · ring
    congr 1
    · ring
    congr 1
    · ring
    congr 1
    ring
  have s4 : rotAll Real.cos Real.sin Real.pi 4 (planes 4) 0 [-√2, √2, 0, 0] =
      [0, 0, 0, -2] := by
    rw [rotAll_four_pi]
    congr 1
    · ring
    congr 1
    · ring
    congr 1
    · ring
    congr 1
    linear_combination (-1 : ℝ) * h2
  rw [s1, s2, s3, s4]

theorem sumSq_of_unit (l : List ℝ) (hl : ∀ x ∈ l, x = -1 ∨ x = 1) :
    (l.map (fun y => y * y)).sum = (l.length : ℝ) := by
  induction l with
  | nil => simp
  | cons a as ih =>
    have ha : a * a = 1 := by
      rcases hl a (List.mem_cons_self a as) with rfl | rfl <;> norm_num
    rw [List.map_cons, List.sum_cons, ih (fun x hx => hl x (List.mem_cons_of_mem a hx)), ha,
      List.length_cons]
    push_cast
    ring

/-- `Rotate` keeps a common value of the squared norm of the vertices. -/
theorem normSq_const_Rotate (h h1 : Hypercube ℝ) (hv : Valid h) (t c : ℝ)
    (hr : Rotate Real.cos Real.sin h t = some h1) (hc : ∀ p ∈ h.vertices, normSq p = c) :
    ∀ q ∈ h1.vertices, normSq q = c := by
  obtain ⟨h1', r1, -, -, e1⟩ := Rotate_vertices Real.cos Real.sin h hv t
  have e := Option.some.inj (r1.symm.trans hr)
  subst e
  intro q hq
  rw [e1, List.mem_map] at hq
  obtain ⟨p, hp, rfl⟩ := hq
  have hcs : ∀ a : ℝ, Real.cos a * Real.cos a + Real.sin a * Real.sin a = 1 := by
    intro a
    have := Real.cos_sq_add_sin_sq a
    nlinarith
  rw [← hc p hp]
  exact sumSq_rotAll Real.cos Real.sin hcs t h.n h.n.toNat (planes h.n.toNat)
    (mem_planes h.n.toNat) 0 p.coords (hv.2.2.1 p hp)

/-- C14 as stated fails at `n = 4`, on a cube the program reaches: the calls
`Rotate(π)`, `Rotate(π)`, `Rotate(3π)`, `Rotate(π)` on `NewHypercube(4)` return a
valid cube of dimension 4 in which every vertex has Euclidean norm `sqrt(4)` and
vertex 4 is `(0, 0, 0, -2)`; its divisor `c[3] + 2` is zero, and the point
`ProjectTo3D` computes for it is not finite. -/
theorem zero_divisor_reached_at_dim_four :
    ∃ h0 h1 h2 h3 h4 : Hypercube ℝ,
      NewHypercube 4 = some h0 ∧
      Rotate Real.cos Real.sin h0 Real.pi = some h1 ∧
      Rotate Real.cos Real.sin h1 Real.pi = some h2 ∧
      Rotate Real.cos Real.sin h2 (3 * Real.pi) = some h3 ∧
      Rotate Real.cos Real.sin h3 Real.pi = some h4 ∧
      Valid h4 ∧ h4.n = 4 ∧
      (∀ p ∈ h4.vertices, Real.sqrt (normSq p) = Real.sqrt (h4.n : ℝ)) ∧
      h4.vertices[4]? = some ⟨[0, 0, 0, -2]⟩ ∧ (-2 : ℝ) + 2 = 0 ∧
      ∃ pts : List (Option (ℝ × ℝ × ℝ)), ProjectTo3DFinite h4 = some pts ∧
        pts[4]? = some none := by
  have hh0 : (NewHypercube ((4 : Nat) : Int) : Option (Hypercube ℝ)) = _ :=
    NewHypercube_eq 4 (by decide) (by decide)
  have hv0 := valid_NewHypercube 4 (by decide) (by decide) _ hh0
  have hf0 := (NewHypercube_fresh ((4 : Nat) : Int) _ hh0).2
  obtain ⟨h1, r1, hv1, hn1, e1⟩ := Rotate_vertices Real.cos Real.sin _ hv0 Real.pi
  obtain ⟨h2, r2, hv2, hn2, e2⟩ := Rotate_vertices Real.cos Real.sin h1 hv1 Real.pi
  obtain ⟨h3, r3, hv3, hn3, e3⟩ := Rotate_vertices Real.cos Real.sin h2 hv2 (3 * Real.pi)
  obtain ⟨h4, r4, hv4, hn4, e4⟩ := Rotate_vertices Real.cos Real.sin h3 hv3 Real.pi
  have n1 : h1.n = 4 := hn1
  have n2 : h2.n = 4 := hn2.trans n1
  have n3 : h3.n = 4 := hn3.trans n2
  have n4 : h4.n = 4 := hn4.trans n3
  have c0 : ∀ p ∈ (genVertices ((4 : Nat) : Int) ((2 ^ 4 : Nat) : Int) : List (PointND ℝ)),
      normSq p = 4 := by
    intro p hp
    obtain ⟨hl, hu⟩ := hf0 p hp
    unfold normSq
    rw [sumSq_of_unit p.coords hu, hl]
    show (((4 : Nat) : Int).toNat : ℝ) = 4
    rw [Int.toNat_ofNat]
    norm_num
  have c1 := normSq_const_Rotate _ h1 hv0 Real.pi 4 r1 c0
  have c2 := normSq_const_Rotate h1 h2 hv1 Real.pi 4 r2 c1
  have c3 := normSq_const_Rotate h2 h3 hv2 (3 * Real.pi) 4 r3 c2
  have c4 := normSq_const_Rotate h3 h4 hv3 Real.pi 4 r4 c3
  have v0 : (genVertices ((4 : Nat) : Int) ((2 ^ 4 : Nat) : Int) : List (PointND ℝ))[4]? =
      some ⟨[-1, -1, 1, -1]⟩ := rfl
  have v4 : h4.vertices[4]? = some ⟨[0, 0, 0, -2]⟩ := by
    rw [e4, e3, e2, e1, n3, n2, n1]
    simp only [List.getElem?_map]
    show Option.map _ (Option.map _ (Option.map _ (Option.map _
      ((genVertices ((4 : Nat) : Int) ((2 ^ 4 : Nat) : Int) : List (PointND ℝ))[4]?)))) = _
    rw [v0]
    simp only [Option.map_some']
    show some (⟨rotAll Real.cos Real.sin Real.pi 4 (planes 4) 0
      (rotAll Real.cos Real.sin (3 * Real.pi) 4 (planes 4) 0
        (rotAll Real.cos Real.sin Real.pi 4 (planes 4) 0
          (rotAll Real.cos Real.sin Real.pi 4 (planes 4) 0 [-1, -1, 1, -1])))⟩ :
      PointND ℝ) = _
    rw [rotAll_four_trace]
  refine ⟨_, h1, h2, h3, h4, hh0, r1, r2, r3, r4, hv4, n4, ?_, v4, by norm_num, _,
    ProjectTo3DFinite_eq h4 hv4, ?_⟩
  · intro p hp
    rw [c4 p hp, n4]
    norm_num
  · rw [List.getElem?_map, v4, Option.map_some', n4]
    have e : (([0, 0, 0, -2] : List ℝ).getD ((4 : Int) - 1).toNat 0) + 2 = 0 := by
      show (-2 : ℝ) + 2 = 0
      norm_num
    rw [if_pos e]

end HypercubeGo
